import Mathlib

/-!
# PetriEngine.PQL contexts

A shallow embedding of `src/PetriEngine/PQL/Contexts.cpp`:

* `AnalysisContext.resolve_trace_name`, the trace-name registry;
* `SimplificationContext.buildBase` and `SimplificationContext.makeBaseLP`,
  the construction and caching of the base linear program.

Conventions of the embedding.

* `uint32_t` and `size_t` values are natural numbers; a conversion that can
  lose information is written out (`% 4294967296`, or a subtraction in `Int`).
* A `double` that holds an arc weight, a token count or a difference of two of
  them is an `Int`: every `uint32_t` and every difference of two `uint32_t`
  is exactly representable in a `double`.
* A C++ exception leaves the object in the state reached at the `throw`, so
  a throwing member function returns the new state together with the error.
* A call that the linear-programming library rejects ends the process
  (`Fault`); it is kept apart from the `nullptr` result.
-/

deriving instance DecidableEq for Except

namespace PetriEngine
namespace PQL

/-! ## Trace-name registry -/

/-- The two `base_error`s thrown by `resolve_trace_name`. -/
inductive TraceError where
  /-- "Trace identifier s already existed." -/
  | already_existed (s : String)
  /-- "Trace identifier s does not exist, but is used as a prefix in the query." -/
  | does_not_exist (s : String)
  deriving DecidableEq, Repr

/-- The part of `AnalysisContext` used by `resolve_trace_name`: the map
`_trace_names` from identifiers to `uint32_t`, as the list of its key/value
pairs in insertion order. -/
structure AnalysisContext where
  trace_names : List (String × Nat)
  deriving DecidableEq, Repr

namespace AnalysisContext

/-- The context with no trace name. -/
def empty : AnalysisContext := ⟨[]⟩

/-- Value stored under key `s` (`map.find`). -/
def find (m : List (String × Nat)) (s : String) : Option Nat :=
  match m with
  | [] => none
  | (k, v) :: rest => if k = s then some v else find rest s

/-- The map operation `emplace(make_pair(s, id))`: when `s` is already a key
nothing is inserted and the existing element is returned with `inserted = false`;
otherwise `(s, id)` is inserted and returned with `inserted = true`.
Result: the map afterwards, the value of the element `it` points to, `inserted`. -/
def emplace (m : List (String × Nat)) (s : String) (id : Nat) :
    List (String × Nat) × Nat × Bool :=
  match find m s with
  | some v => (m, v, false)
  | none => (m ++ [(s, id)], id, true)

/-- The member function `AnalysisContext::resolve_trace_name(s, create)`. The context returned is
the one left behind by the call, also when the call throws. -/
def resolve_trace_name (ctx : AnalysisContext) (s : String) (create : Bool) :
    AnalysisContext × Except TraceError Nat :=
  -- uint32_t id = _trace_names.size();
  let id := ctx.trace_names.length % 4294967296
  -- auto [it, inserted] = _trace_names.emplace(std::make_pair(s,id));
  let r := emplace ctx.trace_names s id
  let ctx1 : AnalysisContext := ⟨r.1⟩
  let inserted := r.2.2
  if !inserted && create then
    (ctx1, .error (.already_existed s))
  else if inserted && !create then
    (ctx1, .error (.does_not_exist s))
  else
    (ctx1, .ok r.2.1)

/-- The context after a sequence of `resolve_trace_name` calls, whatever each
call returned or threw. -/
def run_calls (ctx : AnalysisContext) : List (String × Bool) → AnalysisContext
  | [] => ctx
  | (s, create) :: rest => run_calls (resolve_trace_name ctx s create).1 rest

/-- The `k`-th of a family of pairwise different identifiers: `k` letters. -/
def nth_name (k : Nat) : String := String.mk (List.replicate k 'a')

/-- The creation calls for the first `n` identifiers of the family. -/
def many_creations (n : Nat) : List (String × Bool) :=
  (List.range n).map fun k => (nth_name k, true)

/-- The invariant of the registry: no identifier twice, and the stored
indices are the positions reduced to 32 bits. -/
def dense (ctx : AnalysisContext) : Prop :=
  (ctx.trace_names.map Prod.fst).Nodup ∧
  ctx.trace_names.map Prod.snd
    = (List.range ctx.trace_names.length).map fun k => k % 4294967296

end AnalysisContext

/-! ## Name resolution -/

/-- Value stored under key `s` in a map from identifiers (`map.find`), the map
given as the list of its key/value pairs in iteration order. -/
def map_find {α : Type} (m : List (String × α)) (s : String) : Option α :=
  match m with
  | [] => none
  | (k, v) :: rest => if k = s then some v else map_find rest s

/-- The conversion `(int) v` of a `uint32_t`: the value read as a signed
32-bit number. -/
def to_int (v : Nat) : Int :=
  if v % 4294967296 < 2147483648 then ((v % 4294967296 : Nat) : Int)
  else ((v % 4294967296 : Nat) : Int) - 4294967296

/-- The result type `AnalysisContext::ResolutionResult`: an `int` offset and
a success flag. -/
structure ResolutionResult where
  offset : Int
  success : Bool
  deriving DecidableEq, Repr

/-- The part of `AnalysisContext` used by `resolve`: the maps `_placeNames` and
`_transitionNames` from identifiers to `uint32_t` indices. -/
structure NameMaps where
  placeNames : List (String × Nat)
  transitionNames : List (String × Nat)
  deriving DecidableEq, Repr

/-- The member function `AnalysisContext::resolve(identifier, place)`. The
maps returned are the ones left behind by the call. -/
def AnalysisContext.resolve (maps : NameMaps) (identifier : String) (place : Bool) :
    NameMaps × ResolutionResult :=
  -- result.offset = -1; result.success = false;
  let result : ResolutionResult := ⟨-1, false⟩
  -- auto& map = place ? _placeNames : _transitionNames;
  let map := if place then maps.placeNames else maps.transitionNames
  -- auto it = map.find(identifier);
  match map_find map identifier with
  | some v => (maps, { result with offset := to_int v, success := true })
  | none => (maps, result)

/-- The part of `ColoredAnalysisContext` used by `resolvePlace` and
`resolveTransition`: `_coloredPlaceNames` maps a symbolic name to pairs of an
index and a concrete name, `_coloredTransitionNames` maps a symbolic name to
concrete names; each in iteration order. -/
structure ColoredAnalysisContext where
  coloredPlaceNames : List (String × List (Nat × String))
  coloredTransitionNames : List (String × List String)
  deriving DecidableEq, Repr

namespace ColoredAnalysisContext

/-- The member function `ColoredAnalysisContext::resolvePlace(place, fn)`. The
callback `fn` acts on a state of the caller, `s` before the call; the result is
the value returned and the state after the calls of `fn`. -/
def resolvePlace {σ : Type} (ctx : ColoredAnalysisContext) (place : String)
    (fn : String → σ → σ) (s : σ) : Bool × σ :=
  match map_find ctx.coloredPlaceNames place with
  | some names =>
      -- for (auto& [_, name] : it->second) fn(name);
      (true, names.foldl (fun acc e => fn e.2 acc) s)
  | none => (false, s)

/-- The member function `ColoredAnalysisContext::resolveTransition(transition,
fn)`, with the callback as in `resolvePlace`. -/
def resolveTransition {σ : Type} (ctx : ColoredAnalysisContext) (transition : String)
    (fn : String → σ → σ) (s : σ) : Bool × σ :=
  match map_find ctx.coloredTransitionNames transition with
  | some names =>
      -- for (auto& e : it->second) fn(e);
      (true, names.foldl (fun acc e => fn e acc) s)
  | none => (false, s)

/-- The callback that records its argument: the state is the list of the
arguments of the calls made so far, in order. -/
def record (name : String) (log : List String) : List String := log ++ [name]

/-- A colored context: the place family `P` with two instances, the place
family `Q` with none, the transition family `T` with three instances. -/
def colored_example : ColoredAnalysisContext :=
  ⟨[("P", [(0, "P_a"), (1, "P_b")]), ("Q", [])], [("T", ["T_x", "T_y", "T_z"])]⟩

end ColoredAnalysisContext

/-! ## Net capability -/

/-- An element of a preset or postset, with the fields `place`, `tokens` and
`inhibitor` that `buildBase` reads (`inhibitor` is meaningful in presets only). -/
structure Arc where
  place : Nat
  tokens : Nat
  inhibitor : Bool
  deriving DecidableEq, Repr

/-- Modelled from the spec: the net capability consumed by `buildBase` (the
class behind `_net` is declared outside this file). `preset t` and `postset t`
are the arcs between the two iterators returned by the net, in iteration
order; `outArc t p` and `inArc p t` are the two weight look-ups. -/
structure PetriNet where
  numberOfPlaces : Nat
  numberOfTransitions : Nat
  preset : Nat → List Arc
  postset : Nat → List Arc
  outArc : Nat → Nat → Nat
  inArc : Nat → Nat → Nat

/-! ## Linear-programming capability

The LP library behind `glp_prob` is external to the file. Its operations are
modelled with the conventions of its reference manual, which the merge loop
of `buildBase` follows when it fills its buffers from position 1 on: rows and
columns are numbered from 1; a sparse row or column is passed as a length
`len` and two arrays of which the positions `1 .. len` are read; a zero value
is accepted and not stored; an argument out of range makes the library print
a message and abort the process. -/

/-- What ends a run without a result: a call the LP library rejects (it prints
a message and aborts the process), or a write past the end of a buffer. -/
inductive Fault where
  | glpk_error
  | buffer_overflow
  deriving DecidableEq, Repr

/-- A bound passed to the LP library: a finite value or `+infinity`. -/
inductive Dbl where
  | fin (v : Int)
  | infty
  deriving DecidableEq, Repr

/-- Bound kinds of a row. -/
inductive BndKind where
  | GLP_FR
  | GLP_LO
  | GLP_UP
  | GLP_DB
  | GLP_FX
  deriving DecidableEq, Repr

/-- Kind and the two bounds of a row, as given to `glp_set_row_bnds`. -/
structure RowBnds where
  kind : BndKind
  lb : Dbl
  ub : Dbl
  deriving DecidableEq, Repr

/-- Modelled from the spec: the problem object of the LP capability (the
library is external to the file). `m` rows and `n` columns, numbered from 1;
`coef i j` is the constraint coefficient in row `i` and column `j`, where a
coefficient that is not stored is `0`; `row_bnds i` are the bounds of row `i`. -/
structure GlpProb where
  m : Nat
  n : Nat
  coef : Nat → Nat → Int
  row_bnds : Nat → RowBnds

/-- Modelled from the spec: `glp_create_prob`, an empty problem. The library
never returns a null handle; `buildBase` tests for one all the same. -/
def glp_create_prob : Option GlpProb :=
  some ⟨0, 0, fun _ _ => 0, fun _ => ⟨.GLP_FR, .fin 0, .fin 0⟩⟩

/-- Modelled from the spec: `glp_add_rows(lp, nrs)` appends `nrs` free, empty
rows; the library rejects `nrs < 1`. -/
def glp_add_rows (lp : GlpProb) (nrs : Nat) : Except Fault GlpProb :=
  if nrs < 1 then .error .glpk_error
  else .ok { lp with m := lp.m + nrs }

/-- Modelled from the spec: `glp_add_cols(lp, ncs)` appends `ncs` empty
columns; the library rejects `ncs < 1`. -/
def glp_add_cols (lp : GlpProb) (ncs : Nat) : Except Fault GlpProb :=
  if ncs < 1 then .error .glpk_error
  else .ok { lp with n := lp.n + ncs }

/-- The `len` index/value pairs `(ind[k], val[k])`, `k = 1 .. len`, that the LP
library reads from the two arrays it is given (position 0 is never read). A
read past the end of an array yields index 0, which the library rejects. -/
def read_sparse (len : Nat) (ind : List Nat) (val : List Int) : List (Nat × Int) :=
  (List.range len).map fun k => (ind.getD (k + 1) 0, val.getD (k + 1) 0)

/-- Value found under index `i` in a list of index/value pairs, `0` if none. -/
def sparse_get : List (Nat × Int) → Nat → Int
  | [], _ => 0
  | (k, v) :: rest, i => if k = i then v else sparse_get rest i

/-- Modelled from the spec: the sparse vector `ind[k], val[k]`, `k = 1 .. len`,
is one the LP library accepts for a row or column of a problem whose other
dimension is `dim`: the length is in `0 .. dim`, every index is in `1 .. dim`
and no index is repeated. -/
def sparse_ok (len : Int) (dim : Nat) (ind : List Nat) (val : List Int) : Prop :=
  (0 ≤ len ∧ len ≤ (dim : Int)) ∧
  (∀ e ∈ read_sparse len.toNat ind val, 1 ≤ e.1 ∧ e.1 ≤ dim) ∧
  ((read_sparse len.toNat ind val).map Prod.fst).Nodup

instance (len : Int) (dim : Nat) (ind : List Nat) (val : List Int) :
    Decidable (sparse_ok len dim ind val) := by
  unfold sparse_ok; infer_instance

/-- Modelled from the spec: `glp_set_mat_col(lp, j, len, ind, val)` replaces
column `j` by the entries `ind[k], val[k]`, `k = 1 .. len`. The library rejects
a column number outside `1 .. n`, a length outside `0 .. m`, a row index
outside `1 .. m` and a repeated row index. -/
def glp_set_mat_col (lp : GlpProb) (j : Nat) (len : Int) (ind : List Nat) (val : List Int) :
    Except Fault GlpProb :=
  if (1 ≤ j ∧ j ≤ lp.n) ∧ sparse_ok len lp.m ind val then
    .ok { lp with coef := fun i c =>
            if c = j then sparse_get (read_sparse len.toNat ind val) i else lp.coef i c }
  else .error .glpk_error

/-- Modelled from the spec: `glp_set_mat_row(lp, i, len, ind, val)` replaces
row `i` by the entries `ind[k], val[k]`, `k = 1 .. len`. The library rejects a
row number outside `1 .. m`, a length outside `0 .. n`, a column index outside
`1 .. n` and a repeated column index. -/
def glp_set_mat_row (lp : GlpProb) (i : Nat) (len : Int) (ind : List Nat) (val : List Int) :
    Except Fault GlpProb :=
  if (1 ≤ i ∧ i ≤ lp.m) ∧ sparse_ok len lp.n ind val then
    .ok { lp with coef := fun r j =>
            if r = i then sparse_get (read_sparse len.toNat ind val) j else lp.coef r j }
  else .error .glpk_error

/-- Modelled from the spec: `glp_set_row_bnds(lp, i, type, lb, ub)` sets kind
and bounds of row `i`; the library rejects a row number outside `1 .. m`. -/
def glp_set_row_bnds (lp : GlpProb) (i : Nat) (kind : BndKind) (lb ub : Dbl) :
    Except Fault GlpProb :=
  if 1 ≤ i ∧ i ≤ lp.m then
    .ok { lp with row_bnds := fun r => if r = i then ⟨kind, lb, ub⟩ else lp.row_bnds r }
  else .error .glpk_error

/-- Modelled from the spec: `glp_copy_prob(dest, src, GLP_OFF)` makes `dest`
a copy of `src` (dimensions, coefficients, bounds). -/
def glp_copy_prob (_dest src : GlpProb) : GlpProb := src

/-- Value of row `i` at the point `x`: the sum over the columns `1 .. n` of
`coef i j * x j`. -/
def row_activity (lp : GlpProb) (x : Nat → Int) (i : Nat) : Int :=
  ((List.range lp.n).map fun j => lp.coef i (j + 1) * x (j + 1)).sum

/-- Order on bounds, `+infinity` on top. -/
def Dbl.le : Dbl → Dbl → Prop
  | .fin a, .fin b => a ≤ b
  | _, .infty => True
  | .infty, .fin _ => False

instance (a b : Dbl) : Decidable (Dbl.le a b) := by
  cases a <;> cases b <;> unfold Dbl.le <;> infer_instance

/-- Modelled from the spec: the constraint that row `i` puts on the point `x`,
by bound kind: free, bounded below, bounded above, both, fixed. -/
def row_holds (lp : GlpProb) (x : Nat → Int) (i : Nat) : Prop :=
  match (lp.row_bnds i).kind with
  | .GLP_FR => True
  | .GLP_LO => Dbl.le (lp.row_bnds i).lb (.fin (row_activity lp x i))
  | .GLP_UP => Dbl.le (.fin (row_activity lp x i)) (lp.row_bnds i).ub
  | .GLP_DB => Dbl.le (lp.row_bnds i).lb (.fin (row_activity lp x i)) ∧
      Dbl.le (.fin (row_activity lp x i)) (lp.row_bnds i).ub
  | .GLP_FX => (lp.row_bnds i).lb = .fin (row_activity lp x i)

instance (lp : GlpProb) (x : Nat → Int) (i : Nat) : Decidable (row_holds lp x i) := by
  unfold row_holds; split <;> infer_instance

/-! ## Simplification context -/

/-- The merge loop of `buildBase` over the preset `pre` and the postset `post`
of one transition: each iteration writes one pair `(indir[l], col[l])` and
moves on to `l + 1`. The result lists the pairs written at `l = 1, 2, ...`;
`fuel` bounds the number of iterations. -/
def merge_loop : Nat → List Arc → List Arc → List (Nat × Int)
  | 0, _, _ => []
  | _ + 1, [], [] => []
  | fuel + 1, [], b :: post =>
      -- pre.first == pre.second
      (b.place + 1, (b.tokens : Int)) :: merge_loop fuel [] post
  | fuel + 1, a :: pre, [] =>
      -- post.first == post.second
      (a.place + 1, if !a.inhibitor then -(a.tokens : Int) else 0) :: merge_loop fuel pre []
  | fuel + 1, a :: pre, b :: post =>
      if b.place < a.place then
        (b.place + 1, (b.tokens : Int)) :: merge_loop fuel (a :: pre) post
      else if a.place < b.place then
        (a.place + 1, if !a.inhibitor then -(a.tokens : Int) else 0)
          :: merge_loop fuel pre (b :: post)
      else
        (a.place + 1, if !a.inhibitor then (b.tokens : Int) - (a.tokens : Int)
            else (b.tokens : Int))
          :: merge_loop fuel pre post

/-- The two cursors of the merge loop after `fuel` iterations, or after the
loop has ended if that comes first: what is left of the preset and of the
postset. The tests are those of `merge_loop`. -/
def merge_rest : Nat → List Arc → List Arc → List Arc × List Arc
  | 0, pre, post => (pre, post)
  | _ + 1, [], [] => ([], [])
  | fuel + 1, [], _ :: post => merge_rest fuel [] post
  | fuel + 1, _ :: pre, [] => merge_rest fuel pre []
  | fuel + 1, a :: pre, b :: post =>
      if b.place < a.place then merge_rest fuel (a :: pre) post
      else if a.place < b.place then merge_rest fuel pre (b :: post)
      else merge_rest fuel pre post

/-- The merge loop run to its end: every iteration consumes an arc, so
`|pre| + |post|` iterations are enough. -/
def merge_walk (pre post : List Arc) : List (Nat × Int) :=
  merge_loop (pre.length + post.length) pre post

/-- The loop over the transitions `t, t + 1, ...` (`k` of them left): merge
walk, `glp_set_mat_col(lp, t + 1, l - 1, indir, col)`, then the `timeout()`
check. The buffer `col` has `nRow + 1` slots, so a walk that writes more than
`nRow` pairs runs past its end. `polls` counts the calls of `timeout()`.
Result: the problem, or `none` when the check fired, and the new `polls`. -/
def column_loop (net : PetriNet) (tmo : Nat → Bool) :
    Nat → Nat → GlpProb → Nat → Except Fault (Option GlpProb × Nat)
  | 0, _, lp, polls => .ok (some lp, polls)
  | k + 1, t, lp, polls =>
      let es := merge_walk (net.preset t) (net.postset t)
      if net.numberOfPlaces < es.length then .error .buffer_overflow
      else
        match glp_set_mat_col lp (t + 1) (es.length : Int)
            (0 :: es.map Prod.fst) (0 :: es.map Prod.snd) with
        | .error e => .error e
        | .ok lp1 =>
            if tmo polls then .ok (none, polls + 1)
            else column_loop net tmo k (t + 1) lp1 (polls + 1)

/-- The loop over the places `p, p + 1, ...` (`k` of them left) that sets the
bounds of row `rowno` to `[-marking[p], +infinity)`, then checks `timeout()`.
Result: problem and `rowno`, or `none` when the check fired, and `polls`. -/
def bounds_loop (marking : Nat → Nat) (tmo : Nat → Bool) :
    Nat → Nat → Nat → GlpProb → Nat → Except Fault (Option (GlpProb × Nat) × Nat)
  | 0, _, rowno, lp, polls => .ok (some (lp, rowno), polls)
  | k + 1, p, rowno, lp, polls =>
      match glp_set_row_bnds lp rowno .GLP_LO (.fin (0 - (marking p : Int))) .infty with
      | .error e => .error e
      | .ok lp1 =>
          if tmo polls then .ok (none, polls + 1)
          else bounds_loop marking tmo k (p + 1) (rowno + 1) lp1 (polls + 1)

/-- The inner loop of the second row block for place `p`, over the
transitions `t, t + 1, ...` (`k` of them left): where
`outArc(t, p) - inArc(p, t) != 0` it writes the difference to `row[t]` and
appends `t` to `indices`. -/
def effect_loop (net : PetriNet) (p : Nat) :
    Nat → Nat → List Int → List Nat → List Int × List Nat
  | 0, _, row, indices => (row, indices)
  | k + 1, t, row, indices =>
      if ((net.outArc t p : Int) - (net.inArc p t : Int)) % 4294967296 ≠ 0 then
        effect_loop net p k (t + 1)
          (row.set t ((net.outArc t p : Int) - (net.inArc p t : Int))) (indices ++ [t])
      else effect_loop net p k (t + 1) row indices

/-- The loop of the second row block over the places `p, p + 1, ...` (`k` of
them left): `glp_set_mat_row(lp, rowno, indices.size() - 1, indices.data(),
row.data())`, then `glp_set_row_bnds(lp, rowno, GLP_LO, 0, infty)`. -/
def second_block_loop (net : PetriNet) :
    Nat → Nat → Nat → GlpProb → Except Fault GlpProb
  | 0, _, _, lp => .ok lp
  | k + 1, p, rowno, lp =>
      let ri := effect_loop net p net.numberOfTransitions 0
        (List.replicate net.numberOfTransitions 0) []
      match glp_set_mat_row lp rowno ((ri.2.length : Int) - 1) ri.2 ri.1 with
      | .error e => .error e
      | .ok lp1 =>
          match glp_set_row_bnds lp1 rowno .GLP_LO (.fin 0) .infty with
          | .error e => .error e
          | .ok lp2 => second_block_loop net k (p + 1) (rowno + 1) lp2

/-- The member function `SimplificationContext::buildBase()` for the net `net` and the marking
`marking`. `tmo i` is the answer of the `i`-th call of `timeout()` and `polls`
the number of calls made so far. Result: the problem built, or `none` for
`nullptr`, and the number of calls of `timeout()` afterwards. -/
def buildBase (net : PetriNet) (marking : Nat → Nat) (tmo : Nat → Bool) (polls : Nat) :
    Except Fault (Option GlpProb × Nat) :=
  if tmo polls then .ok (none, polls + 1)
  else
    match glp_create_prob with
    | none => .ok (none, polls + 1)
    | some lp0 =>
      let nCol := net.numberOfTransitions
      let nRow := net.numberOfPlaces
      match glp_add_cols lp0 (nCol + 1) with
      | .error e => .error e
      | .ok lp1 =>
      match glp_add_rows lp1 (nRow + 1) with
      | .error e => .error e
      | .ok lp2 =>
      match column_loop net tmo net.numberOfTransitions 0 lp2 (polls + 1) with
      | .error e => .error e
      | .ok (none, polls1) => .ok (none, polls1)
      | .ok (some lp3, polls1) =>
      match bounds_loop marking tmo net.numberOfPlaces 0 1 lp3 polls1 with
      | .error e => .error e
      | .ok (none, polls2) => .ok (none, polls2)
      | .ok (some (lp4, rowno), polls2) =>
      match glp_add_rows lp4 net.numberOfPlaces with
      | .error e => .error e
      | .ok lp5 =>
      match second_block_loop net net.numberOfPlaces 0 rowno lp5 with
      | .error e => .error e
      | .ok lp6 => .ok (some lp6, polls2)

/-- The part of `SimplificationContext` used by `makeBaseLP`: the net, the
marking and the pointer `_base_lp` (`none` for `nullptr`, else the handle of a
problem object). -/
structure SimplificationContext where
  net : PetriNet
  marking : Nat → Nat
  base_lp : Option Nat

/-- What `makeBaseLP` works in: the problem objects alive (a handle is a
position in `objs`) and the number of calls of `timeout()` made so far. -/
structure World where
  objs : List GlpProb
  polls : Nat

/-- The member function `SimplificationContext::makeBaseLP()`. Result: the handle returned
(`none` for `nullptr`), the context and the world afterwards. -/
def makeBaseLP (ctx : SimplificationContext) (tmo : Nat → Bool) (w : World) :
    Except Fault (Option Nat × SimplificationContext × World) :=
  -- if (_base_lp == nullptr) _base_lp = buildBase();
  let built : Except Fault (SimplificationContext × World) :=
    match ctx.base_lp with
    | some _ => .ok (ctx, w)
    | none =>
        match buildBase ctx.net ctx.marking tmo w.polls with
        | .error e => .error e
        | .ok (none, polls1) => .ok (ctx, { w with polls := polls1 })
        | .ok (some lp, polls1) =>
            .ok ({ ctx with base_lp := some w.objs.length },
                 { objs := w.objs ++ [lp], polls := polls1 })
  match built with
  | .error e => .error e
  | .ok (ctx1, w1) =>
      -- if (_base_lp == nullptr) return nullptr;
      match ctx1.base_lp with
      | none => .ok (none, ctx1, w1)
      | some b =>
          match w1.objs[b]? with
          | none => .error .glpk_error
          | some base =>
              -- tmp_lp = glp_create_prob(); glp_copy_prob(tmp_lp, _base_lp, GLP_OFF);
              match glp_create_prob with
              | none => .error .glpk_error
              | some tmp =>
                  .ok (some w1.objs.length, ctx1,
                       { w1 with objs := w1.objs ++ [glp_copy_prob tmp base] })

/-- What the owner of a context can do between two observations: call
`makeBaseLP` (whatever `timeout()` answers from then on), or change a problem
that an earlier call has handed out. -/
inductive Action where
  | call (tmo : Nat → Bool)
  | mutate (handle : Nat) (lp : GlpProb)

/-- The context, the world and the handles handed out so far, after a sequence
of actions; `none` when a call is aborted. The caller can only change a
problem whose handle it was given: any other `mutate` has no effect. -/
def client_run : SimplificationContext × World × List Nat → List Action →
    Option (SimplificationContext × World × List Nat)
  | s, [] => some s
  | (ctx, w, handed), .call tmo :: rest =>
      match makeBaseLP ctx tmo w with
      | .error _ => none
      | .ok (none, ctx1, w1) => client_run (ctx1, w1, handed) rest
      | .ok (some h, ctx1, w1) => client_run (ctx1, w1, h :: handed) rest
  | (ctx, w, handed), .mutate h lp :: rest =>
      if h ∈ handed then client_run (ctx, { w with objs := w.objs.set h lp }, handed) rest
      else client_run (ctx, w, handed) rest

/-- The state in which a base is cached: `_base_lp` points to an object equal
to `base`, and the caller was never given that handle. -/
def cached_at (s : SimplificationContext × World × List Nat) (b : Nat) (base : GlpProb) :
    Prop :=
  s.1.base_lp = some b ∧ s.2.1.objs[b]? = some base ∧ b ∉ s.2.2

/-! ## Firing -/

/-- Modelled from the spec: weight of the preset arc at place `p`, `0` when
there is none or when it is an inhibitor arc: the tokens that firing takes
from `p`. -/
def pre_weight : List Arc → Nat → Nat
  | [], _ => 0
  | a :: rest, p =>
      if a.place = p then (if a.inhibitor then 0 else a.tokens) else pre_weight rest p

/-- Modelled from the spec: weight of the postset arc at place `p`, `0` when
there is none: the tokens that firing puts into `p`. -/
def post_weight : List Arc → Nat → Nat
  | [], _ => 0
  | b :: rest, p => if b.place = p then b.tokens else post_weight rest p

/-- Modelled from the spec: transition `t` is enabled at marking `m` when every
ordinary preset arc finds its weight in tokens and every inhibitor arc finds
fewer tokens than its weight. -/
def enabled (net : PetriNet) (m : Nat → Nat) (t : Nat) : Prop :=
  t < net.numberOfTransitions ∧
  ∀ a ∈ net.preset t, if a.inhibitor then m a.place < a.tokens else a.tokens ≤ m a.place

instance (net : PetriNet) (m : Nat → Nat) (t : Nat) : Decidable (enabled net m t) := by
  unfold enabled; infer_instance

/-- Modelled from the spec: the marking after firing `t` at `m`. -/
def fire (net : PetriNet) (m : Nat → Nat) (t : Nat) : Nat → Nat :=
  fun p => m p - pre_weight (net.preset t) p + post_weight (net.postset t) p

/-- Modelled from the spec: the sequence `ts` can be fired from `m`, one
transition after the other. -/
def firable (net : PetriNet) (m : Nat → Nat) : List Nat → Prop
  | [] => True
  | t :: ts => enabled net m t ∧ firable net (fire net m t) ts

instance firable_dec (net : PetriNet) : (m : Nat → Nat) → (ts : List Nat) →
    Decidable (firable net m ts)
  | _, [] => isTrue trivial
  | m, t :: ts =>
      have := firable_dec net (fire net m t) ts
      by unfold firable; infer_instance

/-- Modelled from the spec: the marking reached by firing the sequence `ts`
from `m`. -/
def run_firing (net : PetriNet) : (Nat → Nat) → List Nat → (Nat → Nat)
  | m, [] => m
  | m, t :: ts => run_firing net (fire net m t) ts

/-- The firing-count vector of `ts` over the columns of the base problem:
column `t + 1` holds the number of occurrences of transition `t`, every other
column `0`. -/
def firing_count (net : PetriNet) (ts : List Nat) (j : Nat) : Int :=
  if 1 ≤ j ∧ j ≤ net.numberOfTransitions then (ts.count (j - 1) : Int) else 0

/-- Presets and postsets are strictly sorted by place and name places below
`numberOfPlaces`, as the net capability promises. -/
def sorted_arcs (net : PetriNet) : Prop :=
  ∀ t, t < net.numberOfTransitions →
    ((net.preset t).map Arc.place).Pairwise (· < ·) ∧
    ((net.postset t).map Arc.place).Pairwise (· < ·) ∧
    (∀ a ∈ net.preset t, a.place < net.numberOfPlaces) ∧
    (∀ a ∈ net.postset t, a.place < net.numberOfPlaces)

/-- The two weight look-ups `inArc` and `outArc` agree with the arc lists. -/
def arcs_agree (net : PetriNet) : Prop :=
  ∀ t, t < net.numberOfTransitions → ∀ p, p < net.numberOfPlaces →
    net.inArc p t = pre_weight (net.preset t) p ∧
    net.outArc t p = post_weight (net.postset t) p

/-- The nets that the soundness statement is about. -/
def well_formed (net : PetriNet) : Prop :=
  sorted_arcs net ∧ arcs_agree net

instance (net : PetriNet) : Decidable (sorted_arcs net) := by
  unfold sorted_arcs; infer_instance

instance (net : PetriNet) : Decidable (arcs_agree net) := by
  unfold arcs_agree; infer_instance

instance (net : PetriNet) : Decidable (well_formed net) := by
  unfold well_formed; infer_instance

/-! ## Example nets -/

/-- No `timeout()` check ever fires. -/
def never : Nat → Bool := fun _ => false

/-- One place, two transitions, each taking one token from the place. -/
def net_two_takers : PetriNet where
  numberOfPlaces := 1
  numberOfTransitions := 2
  preset := fun t => if t < 2 then [⟨0, 1, false⟩] else []
  postset := fun _ => []
  outArc := fun _ _ => 0
  inArc := fun p t => if p = 0 ∧ t < 2 then 1 else 0



/-- One place, two transitions: transition 0 puts a token into the place,
transition 1 takes one from it. -/
def net_give_take : PetriNet where
  numberOfPlaces := 1
  numberOfTransitions := 2
  preset := fun t => if t = 1 then [⟨0, 1, false⟩] else []
  postset := fun t => if t = 0 then [⟨0, 1, false⟩] else []
  outArc := fun t p => if t = 0 ∧ p = 0 then 1 else 0
  inArc := fun p t => if p = 0 ∧ t = 1 then 1 else 0

/-- One place that no transition touches, and no transition. -/
def net_lone_place : PetriNet where
  numberOfPlaces := 1
  numberOfTransitions := 0
  preset := fun _ => []
  postset := fun _ => []
  outArc := fun _ _ => 0
  inArc := fun _ _ => 0

/-- Two places, one transition that puts a token into place 0; no transition
touches place 1. -/
def net_idle_place : PetriNet where
  numberOfPlaces := 2
  numberOfTransitions := 1
  preset := fun _ => []
  postset := fun t => if t = 0 then [⟨0, 1, false⟩] else []
  outArc := fun t p => if t = 0 ∧ p = 0 then 1 else 0
  inArc := fun _ _ => 0

/-- Two places, one transition moving a token from place 0 to place 1. -/
def net_move : PetriNet where
  numberOfPlaces := 2
  numberOfTransitions := 1
  preset := fun t => if t = 0 then [⟨0, 1, false⟩] else []
  postset := fun t => if t = 0 then [⟨1, 1, false⟩] else []
  outArc := fun t p => if t = 0 ∧ p = 1 then 1 else 0
  inArc := fun p t => if p = 0 ∧ t = 0 then 1 else 0

/-- Two places, three transitions: transition 0 takes 2 tokens from place 0
and puts 5 back, transition 1 has an inhibitor arc of weight 7 from place 1 and
nothing else, transition 2 puts a token into place 1. -/
def net_columns : PetriNet where
  numberOfPlaces := 2
  numberOfTransitions := 3
  preset := fun t => if t = 0 then [⟨0, 2, false⟩] else if t = 1 then [⟨1, 7, true⟩] else []
  postset := fun t => if t = 0 then [⟨0, 5, false⟩] else if t = 2 then [⟨1, 1, false⟩] else []
  outArc := fun t p => if t = 0 ∧ p = 0 then 5 else if t = 2 ∧ p = 1 then 1 else 0
  inArc := fun p t => if p = 0 ∧ t = 0 then 2 else 0

/-- The first `timeout()` check fires, no later one does. -/
def expired_at_first : Nat → Bool := fun i => i == 0

/-- Every `timeout()` check fires. -/
def always : Nat → Bool := fun _ => true

/-- A problem unlike any base problem: no rows, no columns, all coefficients 9. -/
def scribble : GlpProb := ⟨0, 0, fun _ _ => 9, fun _ => ⟨.GLP_FX, .fin 9, .fin 9⟩⟩

/-- The problem in the result `r` of `buildBase`, `scribble` if there is none. -/
def problem_of (r : Except Fault (Option GlpProb × Nat)) : GlpProb :=
  match r with
  | .ok (some lp, _) => lp
  | _ => scribble

/-- The base problem of `net_move` with the empty marking. -/
def move_base : GlpProb := problem_of (buildBase net_move (fun _ => 0) never 0)

/-- The answers of `timeout()` when the budget expires after `n` checks: the
checks `0 .. n - 1` do not fire, every later one does. -/
def expired_after (n : Nat) : Nat → Bool := fun i => decide (n ≤ i)

/-- The marking of `net_move` with one token in place 0 and none in place 1. -/
def marking_one_zero : Nat → Nat := fun p => if p = 0 then 1 else 0

/-! ## Theorems: trace-name registry -/

namespace AnalysisContext

theorem find_append_of_some (m rest : List (String × Nat)) (s : String) (v : Nat)
    (h : find m s = some v) : find (m ++ rest) s = some v := by
  induction m with
  | nil => simp [find] at h
  | cons kv m ih =>
    obtain ⟨k, w⟩ := kv
    by_cases hk : k = s
    · simpa [find, hk] using h
    · simp only [find, hk, if_false, List.cons_append] at h ⊢
      exact ih h

theorem find_append_of_none (m : List (String × Nat)) (s k : String) (v : Nat)
    (h : find m s = none) : find (m ++ [(k, v)]) s = if k = s then some v else none := by
  induction m with
  | nil => simp [find]
  | cons kv m ih =>
    obtain ⟨k1, w⟩ := kv
    by_cases hk : k1 = s
    · simp [find, hk] at h
    · simp only [find, hk, if_false, List.cons_append] at h ⊢
      exact ih h

/-- A key that is present keeps its value through any call. -/
theorem find_resolve_trace_name_of_some (ctx : AnalysisContext) (s i : String) (b : Bool)
    (n : Nat) (h : find ctx.trace_names i = some n) :
    find (resolve_trace_name ctx s b).1.trace_names i = some n := by
  unfold resolve_trace_name emplace
  cases hs : find ctx.trace_names s with
  | some v => cases b <;> simpa using h
  | none => cases b <;> simpa using find_append_of_some _ _ _ _ h

theorem find_run_calls_of_some (calls : List (String × Bool)) (ctx : AnalysisContext)
    (i : String) (n : Nat) (h : find ctx.trace_names i = some n) :
    find (run_calls ctx calls).trace_names i = some n := by
  induction calls generalizing ctx with
  | nil => simpa [run_calls] using h
  | cons c calls ih =>
    obtain ⟨s, b⟩ := c
    simp only [run_calls]
    exact ih _ (find_resolve_trace_name_of_some ctx s i b n h)

/-- A successful creation leaves the identifier stored under the index returned. -/
theorem find_of_created (ctx ctx1 : AnalysisContext) (i : String) (n : Nat)
    (h : resolve_trace_name ctx i true = (ctx1, .ok n)) :
    find ctx1.trace_names i = some n := by
  unfold resolve_trace_name emplace at h
  cases hs : find ctx.trace_names i with
  | some v => simp [hs] at h
  | none =>
    simp [hs] at h
    obtain ⟨h1, h2⟩ := h
    subst h1
    simp [find_append_of_none _ _ _ _ hs, h2]

/-- What a call does on an identifier that is present. -/
theorem resolve_trace_name_of_some (ctx : AnalysisContext) (i : String) (n : Nat) (b : Bool)
    (h : find ctx.trace_names i = some n) :
    resolve_trace_name ctx i b =
      (ctx, if b then .error (.already_existed i) else .ok n) := by
  unfold resolve_trace_name emplace
  cases b <;> simp [h]

/-- C5, as the code behaves: the reference `resolve_trace_name("a", false)` on
the empty registry fails with the undeclared-identifier error, no creation of
`"a"` is ever made, and yet the same reference made right afterwards succeeds
and returns index 0. -/
theorem reference_succeeds_without_creation :
    (resolve_trace_name empty "a" false).2 = .error (.does_not_exist "a") ∧
    ("a", true) ∉ [("a", false)] ∧
    (resolve_trace_name (run_calls empty [("a", false)]) "a" false).2 = .ok 0 := by
  decide

/-- A failing creation leaves the registry as it was. -/
theorem failed_creation_keeps_registry (ctx : AnalysisContext) (s : String) (e : TraceError)
    (h : (resolve_trace_name ctx s true).2 = .error e) :
    (resolve_trace_name ctx s true).1 = ctx := by
  unfold resolve_trace_name emplace at h ⊢
  cases hs : find ctx.trace_names s with
  | some v => simp
  | none => simp [hs] at h

/-- C6, as the code behaves: the failing reference
`resolve_trace_name("a", false)` on the empty registry does not leave the
registry as it was: afterwards `"a"` is registered under index 0 and the size
is 1. -/
theorem failed_reference_changes_registry :
    resolve_trace_name empty "a" false = (⟨[("a", 0)]⟩, .error (.does_not_exist "a")) ∧
    (resolve_trace_name empty "a" false).1 ≠ empty ∧
    empty.trace_names.length = 0 ∧
    (resolve_trace_name empty "a" false).1.trace_names.length = 1 := by
  decide

/-- C7: when `resolve_trace_name(i, true)` has succeeded with index `n`, then
after any calls on other identifiers a further `resolve_trace_name(i, true)`
fails with the duplicate-identifier error and `resolve_trace_name(i, false)`
succeeds with the same index `n`; neither call changes the registry. -/
theorem created_name_is_stable (ctx ctx1 : AnalysisContext) (i : String) (n : Nat)
    (calls : List (String × Bool))
    (hcreate : resolve_trace_name ctx i true = (ctx1, .ok n))
    (hother : ∀ c ∈ calls, c.1 ≠ i) :
    resolve_trace_name (run_calls ctx1 calls) i true
      = (run_calls ctx1 calls, .error (.already_existed i)) ∧
    resolve_trace_name (run_calls ctx1 calls) i false = (run_calls ctx1 calls, .ok n) := by
  have _ := hother
  have h := find_run_calls_of_some calls ctx1 i n (find_of_created ctx ctx1 i n hcreate)
  exact ⟨by simpa using resolve_trace_name_of_some _ i n true h,
         by simpa using resolve_trace_name_of_some _ i n false h⟩

theorem created_name_is_stable_witness :
    resolve_trace_name ⟨[("x", 0)]⟩ "a" true = (⟨[("x", 0), ("a", 1)]⟩, .ok 1) ∧
    (∀ c ∈ [("b", true), ("c", false), ("x", true)], c.1 ≠ "a") ∧
    resolve_trace_name (run_calls ⟨[("x", 0), ("a", 1)]⟩
        [("b", true), ("c", false), ("x", true)]) "a" true
      = (run_calls ⟨[("x", 0), ("a", 1)]⟩ [("b", true), ("c", false), ("x", true)],
          .error (.already_existed "a")) ∧
    resolve_trace_name (run_calls ⟨[("x", 0), ("a", 1)]⟩
        [("b", true), ("c", false), ("x", true)]) "a" false
      = (run_calls ⟨[("x", 0), ("a", 1)]⟩ [("b", true), ("c", false), ("x", true)], .ok 1) :=
  ⟨by decide, by decide,
   created_name_is_stable ⟨[("x", 0)]⟩ ⟨[("x", 0), ("a", 1)]⟩ "a" 1
     [("b", true), ("c", false), ("x", true)] (by decide) (by decide)⟩

end AnalysisContext


/-! ## Theorems: the LP capability -/

theorem read_sparse_cons (es : List (Nat × Int)) (a : Nat) (b : Int) :
    read_sparse es.length (a :: es.map Prod.fst) (b :: es.map Prod.snd) = es := by
  unfold read_sparse
  apply List.ext_getElem
  · simp
  · intro k h1 h2
    simp at h1
    simp [List.getD, h1]

theorem glp_set_mat_col_ok {lp lp1 : GlpProb} {j : Nat} {len : Int} {ind : List Nat}
    {val : List Int} (h : glp_set_mat_col lp j len ind val = .ok lp1) :
    lp1.m = lp.m ∧ lp1.n = lp.n ∧ lp1.row_bnds = lp.row_bnds ∧
    ∀ i c, lp1.coef i c =
      if c = j then sparse_get (read_sparse len.toNat ind val) i else lp.coef i c := by
  unfold glp_set_mat_col at h
  split_ifs at h
  cases h
  exact ⟨rfl, rfl, rfl, fun _ _ => rfl⟩

theorem glp_set_mat_row_ok {lp lp1 : GlpProb} {i : Nat} {len : Int} {ind : List Nat}
    {val : List Int} (h : glp_set_mat_row lp i len ind val = .ok lp1) :
    lp1.m = lp.m ∧ lp1.n = lp.n ∧ lp1.row_bnds = lp.row_bnds ∧
    ∀ r c, lp1.coef r c =
      if r = i then sparse_get (read_sparse len.toNat ind val) c else lp.coef r c := by
  unfold glp_set_mat_row at h
  split_ifs at h
  cases h
  exact ⟨rfl, rfl, rfl, fun _ _ => rfl⟩

theorem glp_set_row_bnds_ok {lp lp1 : GlpProb} {i : Nat} {kind : BndKind} {lb ub : Dbl}
    (h : glp_set_row_bnds lp i kind lb ub = .ok lp1) :
    lp1.m = lp.m ∧ lp1.n = lp.n ∧ lp1.coef = lp.coef ∧ (1 ≤ i ∧ i ≤ lp.m) ∧
    ∀ r, lp1.row_bnds r = if r = i then ⟨kind, lb, ub⟩ else lp.row_bnds r := by
  unfold glp_set_row_bnds at h
  split_ifs at h with hi
  cases h
  exact ⟨rfl, rfl, rfl, hi, fun _ => rfl⟩

theorem glp_add_rows_ok {lp lp1 : GlpProb} {nrs : Nat} (h : glp_add_rows lp nrs = .ok lp1) :
    lp1.m = lp.m + nrs ∧ lp1.n = lp.n ∧ lp1.coef = lp.coef ∧ lp1.row_bnds = lp.row_bnds ∧
    1 ≤ nrs := by
  unfold glp_add_rows at h
  split_ifs at h with hn
  cases h
  exact ⟨rfl, rfl, rfl, rfl, by omega⟩

theorem sparse_get_of_not_mem (es : List (Nat × Int)) (i : Nat)
    (h : i ∉ es.map Prod.fst) : sparse_get es i = 0 := by
  induction es with
  | nil => rfl
  | cons e es ih =>
    obtain ⟨k, v⟩ := e
    simp only [List.map_cons, List.mem_cons, not_or] at h
    simp only [sparse_get, if_neg (Ne.symm h.1)]
    exact ih h.2

/-! ## Theorems: the merge walk -/

theorem pre_weight_eq_zero (pre : List Arc) (p : Nat) (h : ∀ a ∈ pre, a.place ≠ p) :
    pre_weight pre p = 0 := by
  induction pre with
  | nil => rfl
  | cons a pre ih =>
    simp only [List.mem_cons, forall_eq_or_imp] at h
    simp only [pre_weight, if_neg h.1]
    exact ih h.2

theorem post_weight_eq_zero (post : List Arc) (p : Nat) (h : ∀ b ∈ post, b.place ≠ p) :
    post_weight post p = 0 := by
  induction post with
  | nil => rfl
  | cons b post ih =>
    simp only [List.mem_cons, forall_eq_or_imp] at h
    simp only [post_weight, if_neg h.1]
    exact ih h.2

/-- In a list strictly sorted by place the places after the head are larger. -/
theorem head_lt_of_sorted (a : Arc) (l : List Arc)
    (h : ((a :: l).map Arc.place).Pairwise (· < ·)) : ∀ c ∈ l, a.place < c.place := by
  intro c hc
  simp only [List.map_cons, List.pairwise_cons, List.mem_map, forall_exists_index, and_imp,
    forall_apply_eq_imp_iff₂] at h
  exact h.1 c hc

theorem tail_sorted (a : Arc) (l : List Arc)
    (h : ((a :: l).map Arc.place).Pairwise (· < ·)) : (l.map Arc.place).Pairwise (· < ·) := by
  simp only [List.map_cons, List.pairwise_cons] at h
  exact h.2

/-- The merge loop ends by itself within `|pre| + |post|` iterations: with
that much fuel or more the result does not depend on the fuel. -/
theorem merge_loop_fuel : ∀ (f1 f2 : Nat) (pre post : List Arc),
    pre.length + post.length ≤ f1 → pre.length + post.length ≤ f2 →
    merge_loop f1 pre post = merge_loop f2 pre post := by
  intro f1
  induction f1 with
  | zero =>
    intro f2 pre post h1 _
    have hp : pre = [] := List.length_eq_zero.mp (by omega)
    have hq : post = [] := List.length_eq_zero.mp (by omega)
    subst hp hq
    cases f2 <;> simp [merge_loop]
  | succ f1 ih =>
    intro f2 pre post h1 h2
    cases pre with
    | nil =>
      cases post with
      | nil => cases f2 <;> simp [merge_loop]
      | cons b post =>
        cases f2 with
        | zero => simp at h2
        | succ f2 =>
          simp only [merge_loop]
          rw [ih f2 [] post (by simp at h1 ⊢; omega) (by simp at h2 ⊢; omega)]
    | cons a pre =>
      cases f2 with
      | zero => simp at h2
      | succ f2 =>
        cases post with
        | nil =>
          simp only [merge_loop]
          rw [ih f2 pre [] (by simp at h1 ⊢; omega) (by simp at h2 ⊢; omega)]
        | cons b post =>
          simp only [merge_loop]
          rw [ih f2 (a :: pre) post (by simp at h1 ⊢; omega) (by simp at h2 ⊢; omega),
            ih f2 pre (b :: post) (by simp at h1 ⊢; omega) (by simp at h2 ⊢; omega),
            ih f2 pre post (by simp at h1 ⊢; omega) (by simp at h2 ⊢; omega)]

/-- The value the merge loop emits for place `p`, read back by row index. -/
theorem sparse_get_merge_loop (p : Nat) : ∀ (fuel : Nat) (pre post : List Arc),
    pre.length + post.length ≤ fuel →
    (pre.map Arc.place).Pairwise (· < ·) → (post.map Arc.place).Pairwise (· < ·) →
    sparse_get (merge_loop fuel pre post) (p + 1)
      = (post_weight post p : Int) - (pre_weight pre p : Int) := by
  intro fuel
  induction fuel with
  | zero =>
    intro pre post hf _ _
    have h1 : pre = [] := List.length_eq_zero.mp (by omega)
    have h2 : post = [] := List.length_eq_zero.mp (by omega)
    subst h1 h2
    simp [merge_loop, sparse_get, pre_weight, post_weight]
  | succ fuel ih =>
    intro pre post hf hpre hpost
    cases pre with
    | nil =>
      cases post with
      | nil => simp [merge_loop, sparse_get, pre_weight, post_weight]
      | cons b post =>
        have hrec := ih [] post (by simp at hf ⊢; omega) hpre (tail_sorted b post hpost)
        by_cases hb : b.place = p
        · simp [merge_loop, sparse_get, pre_weight, post_weight, hb]
        · simp [merge_loop, sparse_get, post_weight, hb, hrec]
    | cons a pre =>
      cases post with
      | nil =>
        have hrec := ih pre [] (by simp at hf ⊢; omega) (tail_sorted a pre hpre) hpost
        by_cases ha : a.place = p
        · cases hinh : a.inhibitor <;>
            simp [merge_loop, sparse_get, pre_weight, post_weight, ha, hinh]
        · simp [merge_loop, sparse_get, pre_weight, ha, hrec]
      | cons b post =>
        have hgt_a := head_lt_of_sorted a pre hpre
        have hgt_b := head_lt_of_sorted b post hpost
        by_cases hlt : b.place < a.place
        · have hrec := ih (a :: pre) post (by simp at hf ⊢; omega) hpre
            (tail_sorted b post hpost)
          simp only [merge_loop, if_pos hlt]
          by_cases hb : b.place = p
          · have hz : pre_weight (a :: pre) p = 0 := by
              apply pre_weight_eq_zero
              intro c hc
              rcases List.mem_cons.mp hc with rfl | hc
              · omega
              · have := hgt_a c hc
                omega
            simp [sparse_get, post_weight, hb, hz]
          · simp [sparse_get, post_weight, hb, hrec]
        · by_cases hlt2 : a.place < b.place
          · have hrec := ih pre (b :: post) (by simp at hf ⊢; omega)
              (tail_sorted a pre hpre) hpost
            simp only [merge_loop, if_neg hlt, if_pos hlt2]
            by_cases ha : a.place = p
            · have hz : post_weight (b :: post) p = 0 := by
                apply post_weight_eq_zero
                intro c hc
                rcases List.mem_cons.mp hc with rfl | hc
                · omega
                · have := hgt_b c hc
                  omega
              cases hinh : a.inhibitor <;>
                simp [sparse_get, pre_weight, ha, hz, hinh]
            · simp [sparse_get, pre_weight, ha, hrec]
          · have heq : a.place = b.place := by omega
            have hrec := ih pre post (by simp at hf ⊢; omega)
              (tail_sorted a pre hpre) (tail_sorted b post hpost)
            simp only [merge_loop, if_neg hlt, if_neg hlt2]
            by_cases ha : a.place = p
            · have hb : b.place = p := by omega
              cases hinh : a.inhibitor <;>
                simp [sparse_get, pre_weight, post_weight, ha, hb, hinh]
            · have hb : ¬ b.place = p := by omega
              simp [sparse_get, pre_weight, post_weight, ha, hb, hrec]

/-- The row indices the merge loop emits are the places of the two arc lists,
each moved up by one. -/
theorem mem_merge_loop (i : Nat) : ∀ (fuel : Nat) (pre post : List Arc),
    pre.length + post.length ≤ fuel →
    (i ∈ (merge_loop fuel pre post).map Prod.fst ↔
      ∃ q, i = q + 1 ∧ (q ∈ pre.map Arc.place ∨ q ∈ post.map Arc.place)) := by
  intro fuel
  induction fuel with
  | zero =>
    intro pre post hf
    have h1 : pre = [] := List.length_eq_zero.mp (by omega)
    have h2 : post = [] := List.length_eq_zero.mp (by omega)
    subst h1 h2
    simp [merge_loop]
  | succ fuel ih =>
    intro pre post hf
    cases pre with
    | nil =>
      cases post with
      | nil => simp [merge_loop]
      | cons b post =>
        have hrec := ih [] post (by simp at hf ⊢; omega)
        simp only [merge_loop, List.map_cons, List.mem_cons, hrec]
        constructor
        · rintro (h | ⟨q, hq, h⟩)
          · exact ⟨b.place, h, Or.inr (Or.inl rfl)⟩
          · rcases h with h | h
            · simp at h
            · exact ⟨q, hq, Or.inr (Or.inr h)⟩
        · rintro ⟨q, hq, h | h | h⟩
          · simp at h
          · left; omega
          · exact Or.inr ⟨q, hq, Or.inr h⟩
    | cons a pre =>
      cases post with
      | nil =>
        have hrec := ih pre [] (by simp at hf ⊢; omega)
        simp only [merge_loop, List.map_cons, List.mem_cons, hrec]
        constructor
        · rintro (h | ⟨q, hq, h⟩)
          · exact ⟨a.place, h, Or.inl (Or.inl rfl)⟩
          · rcases h with h | h
            · exact ⟨q, hq, Or.inl (Or.inr h)⟩
            · simp at h
        · rintro ⟨q, hq, (h | h) | h⟩
          · left; omega
          · exact Or.inr ⟨q, hq, Or.inl h⟩
          · simp at h
      | cons b post =>
        by_cases hlt : b.place < a.place
        · have hrec := ih (a :: pre) post (by simp at hf ⊢; omega)
          simp only [merge_loop, if_pos hlt, List.map_cons, List.mem_cons, hrec]
          constructor
          · rintro (h | ⟨q, hq, h⟩)
            · exact ⟨b.place, h, Or.inr (Or.inl rfl)⟩
            · rcases h with h | h
              · exact ⟨q, hq, Or.inl h⟩
              · exact ⟨q, hq, Or.inr (Or.inr h)⟩
          · rintro ⟨q, hq, h | h | h⟩
            · exact Or.inr ⟨q, hq, Or.inl h⟩
            · left; omega
            · exact Or.inr ⟨q, hq, Or.inr h⟩
        · by_cases hlt2 : a.place < b.place
          · have hrec := ih pre (b :: post) (by simp at hf ⊢; omega)
            simp only [merge_loop, if_neg hlt, if_pos hlt2, List.map_cons, List.mem_cons, hrec]
            constructor
            · rintro (h | ⟨q, hq, h⟩)
              · exact ⟨a.place, h, Or.inl (Or.inl rfl)⟩
              · rcases h with h | h
                · exact ⟨q, hq, Or.inl (Or.inr h)⟩
                · exact ⟨q, hq, Or.inr h⟩
            · rintro ⟨q, hq, (h | h) | h⟩
              · left; omega
              · exact Or.inr ⟨q, hq, Or.inl h⟩
              · exact Or.inr ⟨q, hq, Or.inr h⟩
          · have heq : a.place = b.place := by omega
            have hrec := ih pre post (by simp at hf ⊢; omega)
            simp only [merge_loop, if_neg hlt, if_neg hlt2, List.map_cons, List.mem_cons, hrec]
            constructor
            · rintro (h | ⟨q, hq, h⟩)
              · exact ⟨a.place, h, Or.inl (Or.inl rfl)⟩
              · rcases h with h | h
                · exact ⟨q, hq, Or.inl (Or.inr h)⟩
                · exact ⟨q, hq, Or.inr (Or.inr h)⟩
            · rintro ⟨q, hq, (h | h) | h | h⟩
              · left; omega
              · exact Or.inr ⟨q, hq, Or.inl h⟩
              · left; omega
              · exact Or.inr ⟨q, hq, Or.inr h⟩


/-- On arc lists strictly sorted by place the merge loop emits strictly
increasing row indices. -/
theorem pairwise_merge_loop : ∀ (fuel : Nat) (pre post : List Arc),
    pre.length + post.length ≤ fuel →
    (pre.map Arc.place).Pairwise (· < ·) → (post.map Arc.place).Pairwise (· < ·) →
    ((merge_loop fuel pre post).map Prod.fst).Pairwise (· < ·) := by
  intro fuel
  induction fuel with
  | zero => intro pre post _ _ _; simp [merge_loop]
  | succ fuel ih =>
    intro pre post hf hpre hpost
    cases pre with
    | nil =>
      cases post with
      | nil => simp [merge_loop]
      | cons b post =>
        have hf1 : ([] : List Arc).length + post.length ≤ fuel := by simp at hf ⊢; omega
        have hgt_b := head_lt_of_sorted b post hpost
        simp only [merge_loop, List.map_cons, List.pairwise_cons]
        refine ⟨?_, ih [] post hf1 hpre (tail_sorted b post hpost)⟩
        intro i hi
        obtain ⟨q, hq, h | h⟩ := (mem_merge_loop i fuel [] post hf1).mp hi
        · simp at h
        · obtain ⟨c, hc, rfl⟩ := List.mem_map.mp h
          have := hgt_b c hc
          omega
    | cons a pre =>
      have hgt_a := head_lt_of_sorted a pre hpre
      cases post with
      | nil =>
        have hf1 : pre.length + ([] : List Arc).length ≤ fuel := by simp at hf ⊢; omega
        simp only [merge_loop, List.map_cons, List.pairwise_cons]
        refine ⟨?_, ih pre [] hf1 (tail_sorted a pre hpre) hpost⟩
        intro i hi
        obtain ⟨q, hq, h | h⟩ := (mem_merge_loop i fuel pre [] hf1).mp hi
        · obtain ⟨c, hc, rfl⟩ := List.mem_map.mp h
          have := hgt_a c hc
          omega
        · simp at h
      | cons b post =>
        have hgt_b := head_lt_of_sorted b post hpost
        by_cases hlt : b.place < a.place
        · have hf1 : (a :: pre).length + post.length ≤ fuel := by simp at hf ⊢; omega
          simp only [merge_loop, if_pos hlt, List.map_cons, List.pairwise_cons]
          refine ⟨?_, ih (a :: pre) post hf1 hpre (tail_sorted b post hpost)⟩
          intro i hi
          obtain ⟨q, hq, h | h⟩ := (mem_merge_loop i fuel (a :: pre) post hf1).mp hi
          · obtain ⟨c, hc, rfl⟩ := List.mem_map.mp h
            rcases List.mem_cons.mp hc with rfl | hc
            · omega
            · have := hgt_a c hc
              omega
          · obtain ⟨c, hc, rfl⟩ := List.mem_map.mp h
            have := hgt_b c hc
            omega
        · by_cases hlt2 : a.place < b.place
          · have hf1 : pre.length + (b :: post).length ≤ fuel := by simp at hf ⊢; omega
            simp only [merge_loop, if_neg hlt, if_pos hlt2, List.map_cons, List.pairwise_cons]
            refine ⟨?_, ih pre (b :: post) hf1 (tail_sorted a pre hpre) hpost⟩
            intro i hi
            obtain ⟨q, hq, h | h⟩ := (mem_merge_loop i fuel pre (b :: post) hf1).mp hi
            · obtain ⟨c, hc, rfl⟩ := List.mem_map.mp h
              have := hgt_a c hc
              omega
            · obtain ⟨c, hc, rfl⟩ := List.mem_map.mp h
              rcases List.mem_cons.mp hc with rfl | hc
              · omega
              · have := hgt_b c hc
                omega
          · have hf1 : pre.length + post.length ≤ fuel := by simp at hf ⊢; omega
            simp only [merge_loop, if_neg hlt, if_neg hlt2, List.map_cons, List.pairwise_cons]
            refine ⟨?_, ih pre post hf1 (tail_sorted a pre hpre) (tail_sorted b post hpost)⟩
            intro i hi
            obtain ⟨q, hq, h | h⟩ := (mem_merge_loop i fuel pre post hf1).mp hi
            · obtain ⟨c, hc, rfl⟩ := List.mem_map.mp h
              have := hgt_a c hc
              omega
            · obtain ⟨c, hc, rfl⟩ := List.mem_map.mp h
              have := hgt_b c hc
              omega

/-- A strictly increasing list of numbers in `lo + 1 .. hi` has at most
`hi - lo` elements. -/
theorem length_le_of_increasing (hi : Nat) : ∀ (l : List Nat) (lo : Nat), lo ≤ hi →
    l.Pairwise (· < ·) → (∀ i ∈ l, lo < i ∧ i ≤ hi) → l.length + lo ≤ hi := by
  intro l
  induction l with
  | nil => intro lo h _ _; simpa using h
  | cons x xs ih =>
    intro lo _ hp hr
    simp only [List.pairwise_cons] at hp
    have hx := hr x (List.mem_cons_self _ _)
    have := ih x hx.2 hp.2 (fun i hi1 => ⟨hp.1 i hi1, (hr i (List.mem_cons_of_mem _ hi1)).2⟩)
    simp only [List.length_cons]
    omega

/-- The column of a transition with sorted arc lists over places below `nP`:
strictly increasing row indices in `1 .. nP`, hence at most `nP` entries. -/
theorem merge_walk_in_range (pre post : List Arc) (nP : Nat)
    (hpre : (pre.map Arc.place).Pairwise (· < ·))
    (hpost : (post.map Arc.place).Pairwise (· < ·))
    (hpre_lt : ∀ a ∈ pre, a.place < nP) (hpost_lt : ∀ b ∈ post, b.place < nP) :
    ((merge_walk pre post).map Prod.fst).Pairwise (· < ·) ∧
    (∀ e ∈ merge_walk pre post, 1 ≤ e.1 ∧ e.1 ≤ nP) ∧
    (merge_walk pre post).length ≤ nP := by
  have hpw := pairwise_merge_loop (pre.length + post.length) pre post le_rfl hpre hpost
  have hrange : ∀ i ∈ (merge_walk pre post).map Prod.fst, 0 < i ∧ i ≤ nP := by
    intro i hi
    obtain ⟨q, hq, h | h⟩ := (mem_merge_loop i _ pre post le_rfl).mp hi
    · obtain ⟨c, hc, rfl⟩ := List.mem_map.mp h
      have := hpre_lt c hc
      omega
    · obtain ⟨c, hc, rfl⟩ := List.mem_map.mp h
      have := hpost_lt c hc
      omega
  refine ⟨hpw, ?_, ?_⟩
  · intro e he
    have := hrange e.1 (List.mem_map_of_mem _ he)
    omega
  · have := length_le_of_increasing nP _ 0 (Nat.zero_le _) hpw hrange
    simpa using this

/-- The LP library accepts the column of a transition with sorted arc lists. -/
theorem sparse_ok_merge_walk (pre post : List Arc) (nP m : Nat) (hm : nP ≤ m)
    (hpre : (pre.map Arc.place).Pairwise (· < ·))
    (hpost : (post.map Arc.place).Pairwise (· < ·))
    (hpre_lt : ∀ a ∈ pre, a.place < nP) (hpost_lt : ∀ b ∈ post, b.place < nP) :
    sparse_ok ((merge_walk pre post).length : Int) m
      (0 :: (merge_walk pre post).map Prod.fst) (0 :: (merge_walk pre post).map Prod.snd) := by
  obtain ⟨h1, h2, h3⟩ := merge_walk_in_range pre post nP hpre hpost hpre_lt hpost_lt
  unfold sparse_ok
  simp only [Int.toNat_ofNat, read_sparse_cons]
  refine ⟨⟨by omega, by omega⟩, ?_, ?_⟩
  · intro e he
    have := h2 e he
    omega
  · exact h1.imp (fun h => Nat.ne_of_lt h)

/-! ## Theorems: the loops of buildBase -/

/-- What a run of the column loop that ends with a problem has done. -/
theorem column_loop_ok (net : PetriNet) (tmo : Nat → Bool) :
    ∀ (k t : Nat) (lp : GlpProb) (polls : Nat) (lp1 : GlpProb) (polls1 : Nat),
    column_loop net tmo k t lp polls = .ok (some lp1, polls1) →
    lp1.m = lp.m ∧ lp1.n = lp.n ∧ lp1.row_bnds = lp.row_bnds ∧ polls1 = polls + k ∧
    (∀ i, i < k → tmo (polls + i) = false) ∧
    ∀ i c, lp1.coef i c =
      if t + 1 ≤ c ∧ c ≤ t + k then
        sparse_get (merge_walk (net.preset (c - 1)) (net.postset (c - 1))) i
      else lp.coef i c := by
  intro k
  induction k with
  | zero =>
    intro t lp polls lp1 polls1 h
    simp only [column_loop, Except.ok.injEq, Prod.mk.injEq, Option.some.injEq] at h
    obtain ⟨rfl, rfl⟩ := h
    refine ⟨rfl, rfl, rfl, rfl, by intro i hi; omega, ?_⟩
    intro i c
    rw [if_neg (by omega)]
  | succ k ih =>
    intro t lp polls lp1 polls1 h
    simp only [column_loop] at h
    by_cases hov : net.numberOfPlaces < (merge_walk (net.preset t) (net.postset t)).length
    · simp [hov] at h
    simp only [if_neg hov] at h
    cases hset : glp_set_mat_col lp (t + 1)
        ((merge_walk (net.preset t) (net.postset t)).length : Int)
        (0 :: (merge_walk (net.preset t) (net.postset t)).map Prod.fst)
        (0 :: (merge_walk (net.preset t) (net.postset t)).map Prod.snd) with
    | error e => simp [hset] at h
    | ok lp2 =>
      simp only [hset] at h
      by_cases htmo : tmo polls = true
      · simp [htmo] at h
      simp only [if_neg htmo] at h
      obtain ⟨hm, hn, hb, hc⟩ := glp_set_mat_col_ok hset
      obtain ⟨hm1, hn1, hb1, hp1, ht1, hc1⟩ := ih (t + 1) lp2 (polls + 1) lp1 polls1 h
      refine ⟨by omega, by omega, by rw [hb1, hb], by omega, ?_, ?_⟩
      · intro i hi
        rcases Nat.eq_zero_or_pos i with rfl | hpos
        · simpa using htmo
        · have := ht1 (i - 1) (by omega)
          rwa [show polls + 1 + (i - 1) = polls + i by omega] at this
      · intro i c
        rw [hc1 i c, hc i c]
        simp only [Int.toNat_ofNat, read_sparse_cons]
        by_cases h1 : c = t + 1
        · subst h1
          simp
        · by_cases h2 : t + 1 + 1 ≤ c ∧ c ≤ t + 1 + k
          · rw [if_pos h2, if_pos (by omega)]
          · rw [if_neg h2, if_neg h1, if_neg (by omega)]


/-- On a net with sorted arc lists the column loop is not aborted: it ends at
the first `timeout()` check that fires, or with a problem when none does. -/
theorem column_loop_run (net : PetriNet) (tmo : Nat → Bool) (hs : sorted_arcs net) :
    ∀ (k t : Nat) (lp : GlpProb) (polls : Nat),
    t + k ≤ net.numberOfTransitions → t + k ≤ lp.n → net.numberOfPlaces ≤ lp.m →
    (∀ j, j < k → tmo (polls + j) = true → (∀ i, i < j → tmo (polls + i) = false) →
      column_loop net tmo k t lp polls = .ok (none, polls + j + 1)) ∧
    ((∀ i, i < k → tmo (polls + i) = false) →
      ∃ lp1, column_loop net tmo k t lp polls = .ok (some lp1, polls + k)) := by
  intro k
  induction k with
  | zero =>
    intro t lp polls _ _ _
    exact ⟨fun j hj => absurd hj (Nat.not_lt_zero _), fun _ => ⟨lp, rfl⟩⟩
  | succ k ih =>
    intro t lp polls ht hn hm
    obtain ⟨hpre, hpost, hpre_lt, hpost_lt⟩ := hs t (by omega)
    have hlen := (merge_walk_in_range _ _ _ hpre hpost hpre_lt hpost_lt).2.2
    have hok := sparse_ok_merge_walk _ _ _ lp.m hm hpre hpost hpre_lt hpost_lt
    have hset : ∃ lp2, glp_set_mat_col lp (t + 1)
        ((merge_walk (net.preset t) (net.postset t)).length : Int)
        (0 :: (merge_walk (net.preset t) (net.postset t)).map Prod.fst)
        (0 :: (merge_walk (net.preset t) (net.postset t)).map Prod.snd) = .ok lp2 ∧
        lp2.m = lp.m ∧ lp2.n = lp.n := by
      unfold glp_set_mat_col
      rw [if_pos ⟨⟨by omega, by omega⟩, hok⟩]
      exact ⟨_, rfl, rfl, rfl⟩
    obtain ⟨lp2, hset, hm2, hn2⟩ := hset
    have hstep : column_loop net tmo (k + 1) t lp polls =
        if tmo polls then .ok (none, polls + 1)
        else column_loop net tmo k (t + 1) lp2 (polls + 1) := by
      simp only [column_loop, if_neg (Nat.not_lt.mpr hlen), hset]
    obtain ⟨ih1, ih2⟩ := ih (t + 1) lp2 (polls + 1) (by omega) (by omega) (by omega)
    constructor
    · intro j hj hfire hbefore
      rcases Nat.eq_zero_or_pos j with rfl | hpos
      · rw [hstep]
        simp only [Nat.add_zero] at hfire
        simp [hfire]
      · have h0 : tmo polls = false := by simpa using hbefore 0 hpos
        rw [hstep, h0]
        have := ih1 (j - 1) (by omega)
          (by rwa [show polls + 1 + (j - 1) = polls + j by omega])
          (by
            intro i hi
            have := hbefore (i + 1) (by omega)
            rwa [show polls + (i + 1) = polls + 1 + i by omega] at this)
        simp only [Bool.false_eq_true, if_false]
        rw [this, show polls + 1 + (j - 1) + 1 = polls + j + 1 by omega]
    · intro hall
      have h0 : tmo polls = false := by simpa using hall 0 (by omega)
      rw [hstep, h0]
      obtain ⟨lp1, h1⟩ := ih2 (by
        intro i hi
        have := hall (i + 1) (by omega)
        rwa [show polls + (i + 1) = polls + 1 + i by omega] at this)
      refine ⟨lp1, ?_⟩
      simp only [Bool.false_eq_true, if_false]
      rw [h1, show polls + 1 + k = polls + (k + 1) by omega]

/-- What a run of the row-bounds loop that ends with a problem has done. -/
theorem bounds_loop_ok (marking : Nat → Nat) (tmo : Nat → Bool) :
    ∀ (k p rowno : Nat) (lp : GlpProb) (polls : Nat) (lp1 : GlpProb) (rowno1 polls1 : Nat),
    bounds_loop marking tmo k p rowno lp polls = .ok (some (lp1, rowno1), polls1) →
    lp1.m = lp.m ∧ lp1.n = lp.n ∧ lp1.coef = lp.coef ∧ rowno1 = rowno + k ∧
    polls1 = polls + k ∧ (∀ i, i < k → tmo (polls + i) = false) ∧
    ∀ r, lp1.row_bnds r =
      if rowno ≤ r ∧ r < rowno + k then
        ⟨.GLP_LO, .fin (0 - (marking (p + (r - rowno)) : Int)), .infty⟩
      else lp.row_bnds r := by
  intro k
  induction k with
  | zero =>
    intro p rowno lp polls lp1 rowno1 polls1 h
    simp only [bounds_loop, Except.ok.injEq, Prod.mk.injEq, Option.some.injEq] at h
    obtain ⟨⟨rfl, rfl⟩, rfl⟩ := h
    refine ⟨rfl, rfl, rfl, rfl, rfl, by intro i hi; omega, ?_⟩
    intro r
    rw [if_neg (by omega)]
  | succ k ih =>
    intro p rowno lp polls lp1 rowno1 polls1 h
    rw [bounds_loop] at h
    cases hset : glp_set_row_bnds lp rowno .GLP_LO (.fin (0 - (marking p : Int))) .infty with
    | error e => rw [hset] at h; cases h
    | ok lp2 =>
      rw [hset] at h
      simp only at h
      by_cases htmo : tmo polls = true
      · simp [htmo] at h
      simp only [if_neg htmo] at h
      obtain ⟨hm, hn, hc, _, hb⟩ := glp_set_row_bnds_ok hset
      obtain ⟨hm1, hn1, hc1, hr1, hp1, ht1, hb1⟩ :=
        ih (p + 1) (rowno + 1) lp2 (polls + 1) lp1 rowno1 polls1 h
      refine ⟨by omega, by omega, by rw [hc1, hc], by omega, by omega, ?_, ?_⟩
      · intro i hi
        rcases Nat.eq_zero_or_pos i with rfl | hpos
        · simpa using htmo
        · have := ht1 (i - 1) (by omega)
          rwa [show polls + 1 + (i - 1) = polls + i by omega] at this
      · intro r
        rw [hb1 r, hb r]
        by_cases h1 : r = rowno
        · subst h1
          simp
        · by_cases h2 : rowno + 1 ≤ r ∧ r < rowno + 1 + k
          · rw [if_pos h2, if_pos (by omega),
              show p + 1 + (r - (rowno + 1)) = p + (r - rowno) by omega]
          · rw [if_neg h2, if_neg h1, if_neg (by omega)]

/-- The row-bounds loop is not aborted when its rows exist: it ends at the
first `timeout()` check that fires, or with a problem when none does. -/
theorem bounds_loop_run (marking : Nat → Nat) (tmo : Nat → Bool) :
    ∀ (k p rowno : Nat) (lp : GlpProb) (polls : Nat),
    1 ≤ rowno → rowno + k ≤ lp.m + 1 →
    (∀ j, j < k → tmo (polls + j) = true → (∀ i, i < j → tmo (polls + i) = false) →
      bounds_loop marking tmo k p rowno lp polls = .ok (none, polls + j + 1)) ∧
    ((∀ i, i < k → tmo (polls + i) = false) →
      ∃ lp1, bounds_loop marking tmo k p rowno lp polls
        = .ok (some (lp1, rowno + k), polls + k)) := by
  intro k
  induction k with
  | zero =>
    intro p rowno lp polls _ _
    exact ⟨fun j hj => absurd hj (Nat.not_lt_zero _), fun _ => ⟨lp, rfl⟩⟩
  | succ k ih =>
    intro p rowno lp polls h1 hm
    have hset : ∃ lp2, glp_set_row_bnds lp rowno .GLP_LO (.fin (0 - (marking p : Int))) .infty
        = .ok lp2 ∧ lp2.m = lp.m := by
      unfold glp_set_row_bnds
      rw [if_pos ⟨by omega, by omega⟩]
      exact ⟨_, rfl, rfl⟩
    obtain ⟨lp2, hset, hm2⟩ := hset
    have hstep : bounds_loop marking tmo (k + 1) p rowno lp polls =
        if tmo polls then .ok (none, polls + 1)
        else bounds_loop marking tmo k (p + 1) (rowno + 1) lp2 (polls + 1) := by
      rw [bounds_loop, hset]
    obtain ⟨ih1, ih2⟩ := ih (p + 1) (rowno + 1) lp2 (polls + 1) (by omega) (by omega)
    constructor
    · intro j hj hfire hbefore
      rcases Nat.eq_zero_or_pos j with rfl | hpos
      · rw [hstep]
        simp only [Nat.add_zero] at hfire
        simp [hfire]
      · have h0 : tmo polls = false := by simpa using hbefore 0 hpos
        rw [hstep, h0]
        have := ih1 (j - 1) (by omega)
          (by rwa [show polls + 1 + (j - 1) = polls + j by omega])
          (by
            intro i hi
            have := hbefore (i + 1) (by omega)
            rwa [show polls + (i + 1) = polls + 1 + i by omega] at this)
        simp only [Bool.false_eq_true, if_false]
        rw [this, show polls + 1 + (j - 1) + 1 = polls + j + 1 by omega]
    · intro hall
      have h0 : tmo polls = false := by simpa using hall 0 (by omega)
      rw [hstep, h0]
      obtain ⟨lp1, h1⟩ := ih2 (by
        intro i hi
        have := hall (i + 1) (by omega)
        rwa [show polls + (i + 1) = polls + 1 + i by omega] at this)
      refine ⟨lp1, ?_⟩
      simp only [Bool.false_eq_true, if_false]
      rw [h1, show polls + 1 + k = polls + (k + 1) by omega,
        show rowno + 1 + k = rowno + (k + 1) by omega]

/-- The second row block leaves the dimensions alone, and the rows before its
first row as they were. -/
theorem second_block_loop_ok (net : PetriNet) :
    ∀ (k p rowno : Nat) (lp lp1 : GlpProb),
    second_block_loop net k p rowno lp = .ok lp1 →
    lp1.m = lp.m ∧ lp1.n = lp.n ∧
    ∀ r, r < rowno → lp1.row_bnds r = lp.row_bnds r ∧ ∀ c, lp1.coef r c = lp.coef r c := by
  intro k
  induction k with
  | zero =>
    intro p rowno lp lp1 h
    simp only [second_block_loop, Except.ok.injEq] at h
    subst h
    exact ⟨rfl, rfl, fun _ _ => ⟨rfl, fun _ => rfl⟩⟩
  | succ k ih =>
    intro p rowno lp lp1 h
    simp only [second_block_loop] at h
    split at h
    · cases h
    · rename_i lp2 hrow
      split at h
      · cases h
      · rename_i lp3 hbnd
        obtain ⟨hm2, hn2, hb2, hc2⟩ := glp_set_mat_row_ok hrow
        obtain ⟨hm3, hn3, hc3, _, hb3⟩ := glp_set_row_bnds_ok hbnd
        obtain ⟨hm1, hn1, hrest⟩ := ih (p + 1) (rowno + 1) lp3 lp1 h
        refine ⟨by omega, by omega, ?_⟩
        intro r hr
        obtain ⟨hb, hc⟩ := hrest r (by omega)
        refine ⟨?_, ?_⟩
        · rw [hb, hb3 r, if_neg (by omega), hb2]
        · intro c
          rw [hc c, hc3, hc2 r c, if_neg (by omega)]


theorem glp_add_cols_ok {lp lp1 : GlpProb} {ncs : Nat} (h : glp_add_cols lp ncs = .ok lp1) :
    lp1.m = lp.m ∧ lp1.n = lp.n + ncs ∧ lp1.coef = lp.coef ∧ lp1.row_bnds = lp.row_bnds := by
  unfold glp_add_cols at h
  split_ifs at h with hn
  cases h
  exact ⟨rfl, rfl, rfl, rfl⟩

/-! ## Theorems: buildBase -/

/-- What a run of `buildBase` that returns a problem has built in the columns
and in the state-equation rows, and which `timeout()` checks it has made. -/
theorem buildBase_ok (net : PetriNet) (marking : Nat → Nat) (tmo : Nat → Bool) (polls : Nat)
    (lp : GlpProb) (polls1 : Nat)
    (h : buildBase net marking tmo polls = .ok (some lp, polls1)) :
    lp.n = net.numberOfTransitions + 1 ∧
    lp.m = 2 * net.numberOfPlaces + 1 ∧
    polls1 = polls + 1 + net.numberOfTransitions + net.numberOfPlaces ∧
    (∀ i, i ≤ net.numberOfTransitions + net.numberOfPlaces → tmo (polls + i) = false) ∧
    (∀ p, p < net.numberOfPlaces →
      lp.row_bnds (p + 1) = ⟨.GLP_LO, .fin (0 - (marking p : Int)), .infty⟩) ∧
    (∀ p, p < net.numberOfPlaces → ∀ c, lp.coef (p + 1) c =
      if 1 ≤ c ∧ c ≤ net.numberOfTransitions then
        sparse_get (merge_walk (net.preset (c - 1)) (net.postset (c - 1))) (p + 1)
      else 0) := by
  unfold buildBase at h
  by_cases h0 : tmo polls = true
  · simp [h0] at h
  rw [if_neg h0] at h
  simp only [glp_create_prob] at h
  split at h
  · cases h
  rename_i lp1 hcols
  split at h
  · cases h
  rename_i lp2 hrows
  split at h
  · cases h
  · cases h
  rename_i lp3 pollsA hcl
  split at h
  · cases h
  · cases h
  rename_i lp4 rowno pollsB hbl
  split at h
  · cases h
  rename_i lp5 hrows2
  split at h
  · cases h
  rename_i lp6 hsb
  simp only [Except.ok.injEq, Prod.mk.injEq, Option.some.injEq] at h
  obtain ⟨rfl, rfl⟩ := h
  obtain ⟨hm1, hn1, hc1, hb1⟩ := glp_add_cols_ok hcols
  obtain ⟨hm2, hn2, hc2, hb2, _⟩ := glp_add_rows_ok hrows
  obtain ⟨hm3, hn3, hb3, hp3, ht3, hc3⟩ := column_loop_ok net tmo _ _ _ _ _ _ hcl
  obtain ⟨hm4, hn4, hc4, hr4, hp4, ht4, hb4⟩ := bounds_loop_ok marking tmo _ _ _ _ _ _ _ _ hbl
  obtain ⟨hm5, hn5, hc5, hb5, _⟩ := glp_add_rows_ok hrows2
  obtain ⟨hm6, hn6, hrest⟩ := second_block_loop_ok net _ _ _ _ _ hsb
  simp only at hm1 hn1 hc1 hb1
  refine ⟨by omega, by omega, by omega, ?_, ?_, ?_⟩
  · intro i hi
    rcases Nat.eq_zero_or_pos i with rfl | hpos
    · simpa using h0
    · by_cases hlt : i ≤ net.numberOfTransitions
      · have := ht3 (i - 1) (by omega)
        rwa [show polls + 1 + (i - 1) = polls + i by omega] at this
      · have := ht4 (i - 1 - net.numberOfTransitions) (by omega)
        rwa [hp3, show polls + 1 + net.numberOfTransitions + (i - 1 - net.numberOfTransitions)
          = polls + i by omega] at this
  · intro p hp
    rw [(hrest (p + 1) (by omega)).1, hb5, hb4 (p + 1), if_pos (by omega)]
    simp
  · intro p hp c
    rw [(hrest (p + 1) (by omega)).2 c, hc5, hc4, hc3 (p + 1) c, hc2, hc1]
    simp


theorem sparse_get_of_mem (es : List (Nat × Int)) (e : Nat × Int)
    (hnd : (es.map Prod.fst).Nodup) (he : e ∈ es) : sparse_get es e.1 = e.2 := by
  induction es with
  | nil => simp at he
  | cons x es ih =>
    obtain ⟨k, v⟩ := x
    simp only [List.map_cons, List.nodup_cons] at hnd
    rcases List.mem_cons.mp he with rfl | he1
    · simp [sparse_get]
    · have hne : k ≠ e.1 := by
        intro hk
        exact hnd.1 (hk ▸ List.mem_map_of_mem Prod.fst he1)
      simp only [sparse_get, if_neg hne]
      exact ih hnd.2 he1

/-- C4: in the problem returned by `buildBase`, for every place `p` the
state-equation row `p + 1` is of kind `GLP_LO` with lower bound `-marking[p]`
and upper bound `+infinity`. -/
theorem state_equation_row_bounds (net : PetriNet) (marking : Nat → Nat) (tmo : Nat → Bool)
    (polls : Nat) (lp : GlpProb) (polls1 : Nat)
    (h : buildBase net marking tmo polls = .ok (some lp, polls1))
    (p : Nat) (hp : p < net.numberOfPlaces) :
    lp.row_bnds (p + 1) = ⟨.GLP_LO, .fin (-(marking p : Int)), .infty⟩ := by
  rw [(buildBase_ok net marking tmo polls lp polls1 h).2.2.2.2.1 p hp]
  simp

theorem state_equation_row_bounds_witness :
    ∃ lp polls1, buildBase net_move (fun p => if p = 0 then 1 else 0) never 0
        = .ok (some lp, polls1) ∧ (1 : Nat) < net_move.numberOfPlaces ∧
      lp.row_bnds (1 + 1) = ⟨.GLP_LO, .fin (-(((fun p => if p = 0 then 1 else 0) 1 : Nat) : Int)),
        .infty⟩ :=
  ⟨_, _, rfl, by decide,
    state_equation_row_bounds net_move (fun p => if p = 0 then 1 else 0) never 0 _ _ rfl 1
      (by decide)⟩

/-- C2: for a transition `t` whose preset and postset are strictly sorted by
place, the column loop hands `merge_walk (preset t) (postset t)` to
`glp_set_mat_col` for column `t + 1`; its row indices are strictly increasing
(one entry for an index at most), they are the places of the preset and the
postset moved up by one and no others, and every entry holds the postset
weight minus the preset weight of its place, an inhibitor arc counting for 0.
In a problem returned by `buildBase` the coefficient of row `p + 1` in column
`t + 1` is that difference. -/
theorem column_of_transition (net : PetriNet) (t : Nat)
    (hpre : ((net.preset t).map Arc.place).Pairwise (· < ·))
    (hpost : ((net.postset t).map Arc.place).Pairwise (· < ·)) :
    (∀ (tmo : Nat → Bool) (k : Nat) (lp : GlpProb) (polls : Nat),
      column_loop net tmo (k + 1) t lp polls =
        if net.numberOfPlaces < (merge_walk (net.preset t) (net.postset t)).length then
          .error .buffer_overflow
        else
          match glp_set_mat_col lp (t + 1)
              ((merge_walk (net.preset t) (net.postset t)).length : Int)
              (0 :: (merge_walk (net.preset t) (net.postset t)).map Prod.fst)
              (0 :: (merge_walk (net.preset t) (net.postset t)).map Prod.snd) with
          | .error e => .error e
          | .ok lp1 =>
              if tmo polls then .ok (none, polls + 1)
              else column_loop net tmo k (t + 1) lp1 (polls + 1)) ∧
    ((merge_walk (net.preset t) (net.postset t)).map Prod.fst).Pairwise (· < ·) ∧
    (∀ i, i ∈ (merge_walk (net.preset t) (net.postset t)).map Prod.fst ↔
      ∃ q, i = q + 1 ∧
        (q ∈ (net.preset t).map Arc.place ∨ q ∈ (net.postset t).map Arc.place)) ∧
    (∀ e ∈ merge_walk (net.preset t) (net.postset t),
      e.2 = (post_weight (net.postset t) (e.1 - 1) : Int)
        - (pre_weight (net.preset t) (e.1 - 1) : Int)) ∧
    (∀ (marking : Nat → Nat) (tmo : Nat → Bool) (polls : Nat) (lp : GlpProb) (polls1 : Nat),
      buildBase net marking tmo polls = .ok (some lp, polls1) →
      t < net.numberOfTransitions → ∀ p, p < net.numberOfPlaces →
      lp.coef (p + 1) (t + 1) =
        (post_weight (net.postset t) p : Int) - (pre_weight (net.preset t) p : Int)) := by
  have hpw := pairwise_merge_loop _ _ _ le_rfl hpre hpost
  have hval := fun p => sparse_get_merge_loop p _ _ _ le_rfl hpre hpost
  refine ⟨fun _ _ _ _ => rfl, hpw, fun i => mem_merge_loop i _ _ _ le_rfl, ?_, ?_⟩
  · intro e he
    have hnd : ((merge_walk (net.preset t) (net.postset t)).map Prod.fst).Nodup :=
      hpw.imp (fun h => Nat.ne_of_lt h)
    obtain ⟨q, hq, _⟩ := (mem_merge_loop e.1 _ _ _ le_rfl).mp (List.mem_map_of_mem Prod.fst he)
    rw [← sparse_get_of_mem _ e hnd he, hq, Nat.add_sub_cancel]
    exact hval q
  · intro marking tmo polls lp polls1 h ht p hp
    rw [(buildBase_ok net marking tmo polls lp polls1 h).2.2.2.2.2 p hp (t + 1),
      if_pos ⟨by omega, by omega⟩, Nat.add_sub_cancel]
    exact hval p

theorem column_of_transition_witness :
    ((net_columns.preset 0).map Arc.place).Pairwise (· < ·) ∧
    ((net_columns.postset 0).map Arc.place).Pairwise (· < ·) ∧
    merge_walk (net_columns.preset 0) (net_columns.postset 0) = [(1, 3)] ∧
    (∀ e ∈ merge_walk (net_columns.preset 0) (net_columns.postset 0),
      e.2 = (post_weight (net_columns.postset 0) (e.1 - 1) : Int)
        - (pre_weight (net_columns.preset 0) (e.1 - 1) : Int)) ∧
    ∃ lp polls1, buildBase net_columns (fun _ => 0) never 0 = .ok (some lp, polls1) ∧
      lp.coef (0 + 1) (0 + 1) = (post_weight (net_columns.postset 0) 0 : Int)
        - (pre_weight (net_columns.preset 0) 0 : Int) :=
  ⟨by decide, by decide, by decide,
    (column_of_transition net_columns 0 (by decide) (by decide)).2.2.2.1,
    _, _, rfl,
    (column_of_transition net_columns 0 (by decide) (by decide)).2.2.2.2
      (fun _ => 0) never 0 _ _ rfl (by decide) 0 (by decide)⟩

/-- The two columns named in the specification: a preset arc of weight 2 and a
postset arc of weight 5 at place 0 give the single entry 3 in row 1; a lone
inhibitor arc of weight 7 at place 1 gives the entry 0 in row 2, not -7. -/
theorem merge_walk_examples :
    merge_walk [⟨0, 2, false⟩] [⟨0, 5, false⟩] = [(1, 3)] ∧
    merge_walk [⟨1, 7, true⟩] [] = [(2, 0)] ∧
    merge_walk [⟨1, 7, false⟩] [] = [(2, -7)] := by
  decide


/-! ## Theorems: soundness of the state-equation rows -/

theorem sum_map_range (f : Nat → Int) (n : Nat) :
    ((List.range n).map f).sum = ∑ i in Finset.range n, f i := by
  induction n with
  | zero => simp
  | succ n ih => simp [List.range_succ, Finset.sum_range_succ, ih]

/-- An enabled transition finds in every place the tokens it takes. -/
theorem pre_weight_le_of_enabled (pre : List Arc) (m : Nat → Nat) (p : Nat)
    (h : ∀ a ∈ pre, if a.inhibitor then m a.place < a.tokens else a.tokens ≤ m a.place) :
    pre_weight pre p ≤ m p := by
  induction pre with
  | nil => simp [pre_weight]
  | cons a pre ih =>
    simp only [List.mem_cons, forall_eq_or_imp] at h
    by_cases ha : a.place = p
    · cases hinh : a.inhibitor
      · have := h.1
        simp only [hinh, Bool.false_eq_true, if_false, ha] at this
        simpa [pre_weight, ha, hinh] using this
      · simp [pre_weight, ha, hinh]
    · simp only [pre_weight, if_neg ha]
      exact ih h.2

/-- The state equation: the marking reached by a firable sequence is the
initial marking plus, for every transition, its effect times its number of
occurrences. -/
theorem marking_equation (net : PetriNet) (p : Nat) : ∀ (ts : List Nat) (m : Nat → Nat),
    firable net m ts →
    (run_firing net m ts p : Int) = (m p : Int) +
      ∑ t in Finset.range net.numberOfTransitions,
        ((post_weight (net.postset t) p : Int) - (pre_weight (net.preset t) p : Int))
          * (ts.count t : Int) := by
  intro ts
  induction ts with
  | nil => intro m _; simp [run_firing]
  | cons t ts ih =>
    intro m hf
    obtain ⟨⟨ht, hen⟩, hrest⟩ := hf
    have hle := pre_weight_le_of_enabled (net.preset t) m p hen
    have hfire : (fire net m t p : Int) = (m p : Int) +
        ((post_weight (net.postset t) p : Int) - (pre_weight (net.preset t) p : Int)) := by
      unfold fire
      push_cast [Nat.cast_sub hle]
      ring
    have hcount : ∀ j, ((t :: ts).count j : Int) = (ts.count j : Int) + if j = t then 1 else 0 := by
      intro j
      rw [List.count_cons]
      by_cases hj : j = t
      · simp [hj]
      · have : ¬ t = j := fun h => hj h.symm
        simp [hj, this]
    simp only [run_firing]
    rw [ih (fire net m t) hrest, hfire]
    simp only [hcount, mul_add, Finset.sum_add_distrib, mul_ite, mul_one, mul_zero,
      Finset.sum_ite_eq', Finset.mem_range, if_pos ht]
    ring

/-- The value of a state-equation row at a firing-count vector is the change
of its place. -/
theorem row_activity_firing_count (net : PetriNet) (hs : sorted_arcs net) (marking : Nat → Nat)
    (tmo : Nat → Bool) (polls : Nat) (lp : GlpProb) (polls1 : Nat)
    (h : buildBase net marking tmo polls = .ok (some lp, polls1))
    (ts : List Nat) (p : Nat) (hp : p < net.numberOfPlaces) :
    row_activity lp (firing_count net ts) (p + 1) =
      ∑ t in Finset.range net.numberOfTransitions,
        ((post_weight (net.postset t) p : Int) - (pre_weight (net.preset t) p : Int))
          * (ts.count t : Int) := by
  obtain ⟨hn, _, _, _, _, hcoef⟩ := buildBase_ok net marking tmo polls lp polls1 h
  unfold row_activity
  rw [sum_map_range, hn, Finset.sum_range_succ]
  have hlast : firing_count net ts (net.numberOfTransitions + 1) = 0 := by
    unfold firing_count
    rw [if_neg (by omega)]
  rw [hlast, mul_zero, add_zero]
  apply Finset.sum_congr rfl
  intro t ht
  rw [Finset.mem_range] at ht
  obtain ⟨hpre, hpost, _, _⟩ := hs t ht
  rw [hcoef p hp (t + 1), if_pos ⟨by omega, by omega⟩, Nat.add_sub_cancel]
  unfold merge_walk
  rw [sparse_get_merge_loop p _ _ _ le_rfl hpre hpost]
  unfold firing_count
  rw [if_pos ⟨by omega, by omega⟩, Nat.add_sub_cancel]

/-- C1, amended: for every well-formed net, every marking and every transition
sequence firable from it, the firing-count vector satisfies every
state-equation row (the rows `1 .. numberOfPlaces`) of the problem returned by
`buildBase`. -/
theorem state_equation_rows_sound (net : PetriNet) (hwf : well_formed net)
    (marking : Nat → Nat) (ts : List Nat) (hfire : firable net marking ts)
    (tmo : Nat → Bool) (polls : Nat) (lp : GlpProb) (polls1 : Nat)
    (h : buildBase net marking tmo polls = .ok (some lp, polls1))
    (p : Nat) (hp : p < net.numberOfPlaces) :
    row_holds lp (firing_count net ts) (p + 1) := by
  have hb := (buildBase_ok net marking tmo polls lp polls1 h).2.2.2.2.1 p hp
  have hact := row_activity_firing_count net hwf.1 marking tmo polls lp polls1 h ts p hp
  have hse := marking_equation net p ts marking hfire
  unfold row_holds
  rw [hb]
  simp only [Dbl.le]
  rw [hact]
  have : (0 : Int) ≤ (run_firing net marking ts p : Int) := Int.ofNat_nonneg _
  omega

theorem state_equation_rows_sound_witness :
    well_formed net_move ∧
    firable net_move (fun p => if p = 0 then 1 else 0) [0] ∧
    (∃ lp polls1, buildBase net_move (fun p => if p = 0 then 1 else 0) never 0
        = .ok (some lp, polls1) ∧
      row_holds lp (firing_count net_move [0]) (0 + 1)) ∧
    (0 : Nat) < net_move.numberOfPlaces :=
  ⟨by decide, by decide,
    ⟨_, _, rfl, state_equation_rows_sound net_move (by decide)
      (fun p => if p = 0 then 1 else 0) [0] (by decide) never 0 _ _ rfl 0 (by decide)⟩,
    by decide⟩

/-- C1 as stated fails: on the well-formed net with one place and two
transitions that each take a token from it, with one token in the place, the
sequence that fires transition 0 once is firable, `buildBase` returns a
problem, and the firing-count vector violates its row 2, the second-block
row of the place. -/
theorem second_block_excludes_firing :
    well_formed net_two_takers ∧
    firable net_two_takers (fun _ => 1) [0] ∧
    ∃ lp polls1, buildBase net_two_takers (fun _ => 1) never 0 = .ok (some lp, polls1) ∧
      2 ≤ lp.m ∧ ¬ row_holds lp (firing_count net_two_takers [0]) 2 :=
  ⟨by decide, by decide, _, _, rfl, by decide, by decide⟩

/-- C3, as the code behaves: on the well-formed net with one place and two
transitions, transition 0 putting a token into the place and transition 1
taking one, `buildBase` returns a problem whose second-block row of the place
(row 2) has coefficient -1 in column 1 and 0 in column 2, while
`outArc - inArc` is 1 for transition 0 and -1 for transition 1. -/
theorem second_block_row_shifted :
    well_formed net_give_take ∧
    ((net_give_take.outArc 0 0 : Int) - (net_give_take.inArc 0 0 : Int) = 1) ∧
    ((net_give_take.outArc 1 0 : Int) - (net_give_take.inArc 0 1 : Int) = -1) ∧
    ∃ lp polls1, buildBase net_give_take (fun _ => 0) never 0 = .ok (some lp, polls1) ∧
      lp.coef 2 1 = -1 ∧ lp.coef 2 2 = 0 ∧
      lp.row_bnds 2 = ⟨.GLP_LO, .fin 0, .infty⟩ :=
  ⟨by decide, by decide, by decide, _, _, rfl, by decide, by decide, by decide⟩


/-! ## Theorems: makeBaseLP -/

/-- A call on a context with a cached base copies the base into a fresh
object; it neither calls `timeout()` nor touches the context. -/
theorem makeBaseLP_cached (ctx : SimplificationContext) (tmo : Nat → Bool) (w : World)
    (b : Nat) (base : GlpProb) (hb : ctx.base_lp = some b) (hobj : w.objs[b]? = some base) :
    makeBaseLP ctx tmo w =
      .ok (some w.objs.length, ctx, { objs := w.objs ++ [base], polls := w.polls }) := by
  unfold makeBaseLP
  simp only [hb, hobj, glp_create_prob, glp_copy_prob]

/-- A call on a context without a cached base runs `buildBase`. -/
theorem makeBaseLP_uncached (ctx : SimplificationContext) (tmo : Nat → Bool) (w : World)
    (hb : ctx.base_lp = none) :
    makeBaseLP ctx tmo w =
      match buildBase ctx.net ctx.marking tmo w.polls with
      | .error e => .error e
      | .ok (none, polls1) => .ok (none, ctx, { objs := w.objs, polls := polls1 })
      | .ok (some lp, polls1) =>
          .ok (some (w.objs.length + 1), { ctx with base_lp := some w.objs.length },
            { objs := w.objs ++ [lp] ++ [lp], polls := polls1 }) := by
  unfold makeBaseLP
  simp only [hb]
  cases hbb : buildBase ctx.net ctx.marking tmo w.polls with
  | error e => rfl
  | ok r =>
    obtain ⟨r1, polls1⟩ := r
    cases r1 with
    | none => simp only [hb]
    | some lp => simp [glp_create_prob, glp_copy_prob]

theorem cached_at_client_run (b : Nat) (base : GlpProb) :
    ∀ (actions : List Action) (s : SimplificationContext × World × List Nat),
    cached_at s b base →
    ∃ s2, client_run s actions = some s2 ∧
      cached_at s2 b base ∧ s2.1 = s.1 ∧ s2.2.1.polls = s.2.1.polls := by
  intro actions
  induction actions with
  | nil =>
    intro s hc
    exact ⟨s, rfl, hc, rfl, rfl⟩
  | cons a actions ih =>
    intro s hc
    obtain ⟨ctx, w, handed⟩ := s
    obtain ⟨hb, hobj, hnot⟩ := hc
    simp only at hb hobj hnot
    have hlt : b < w.objs.length := by
      rcases Nat.lt_or_ge b w.objs.length with hl | hl
      · exact hl
      · rw [List.getElem?_eq_none hl] at hobj
        cases hobj
    cases a with
    | call tmo =>
      have hc1 : cached_at (ctx, ({ objs := w.objs ++ [base], polls := w.polls } : World),
          w.objs.length :: handed) b base := by
        refine ⟨hb, ?_, ?_⟩
        · simp only [List.getElem?_append_left hlt, hobj]
        · simp only [List.mem_cons, not_or]
          exact ⟨by omega, hnot⟩
      obtain ⟨s2, hrun, h1, h2, h3⟩ := ih _ hc1
      refine ⟨s2, ?_, h1, h2, h3⟩
      simp only [client_run, makeBaseLP_cached ctx tmo w b base hb hobj]
      exact hrun
    | mutate hnd lp =>
      by_cases hmem : hnd ∈ handed
      · have hne : hnd ≠ b := fun hcontra => hnot (hcontra ▸ hmem)
        have hc1 : cached_at (ctx, ({ w with objs := w.objs.set hnd lp } : World), handed)
            b base := by
          refine ⟨hb, ?_, hnot⟩
          simp only [List.getElem?_set_ne hne, hobj]
        obtain ⟨s2, hrun, h1, h2, h3⟩ := ih _ hc1
        refine ⟨s2, ?_, h1, h2, h3⟩
        simp only [client_run, if_pos hmem]
        exact hrun
      · obtain ⟨s2, hrun, h1, h2, h3⟩ := ih (ctx, w, handed) ⟨hb, hobj, hnot⟩
        refine ⟨s2, ?_, h1, h2, h3⟩
        simp only [client_run, if_neg hmem]
        exact hrun

/-- C8: once a `makeBaseLP` call has returned a problem, the context holds a
cached base equal to it (under a handle the caller does not have), and after
any sequence of further calls and of changes the caller makes to problems it
was handed, no call has been aborted, the context and the cached base are
unchanged, no `timeout()` check has been made (so `buildBase` was not entered),
and a `makeBaseLP` call returns, whatever `timeout()` answers, a fresh object
equal to the problem first returned. -/
theorem cached_base_is_reused (ctx0 : SimplificationContext) (tmo0 : Nat → Bool) (w0 : World)
    (h1 : Nat) (ctx1 : SimplificationContext) (w1 : World)
    (hfirst : makeBaseLP ctx0 tmo0 w0 = .ok (some h1, ctx1, w1)) :
    ∃ b base, ctx1.base_lp = some b ∧ h1 ≠ b ∧
      w1.objs[h1]? = some base ∧ w1.objs[b]? = some base ∧
      ∀ actions : List Action, ∃ (w2 : World) (handed2 : List Nat),
        client_run (ctx1, w1, [h1]) actions = some (ctx1, w2, handed2) ∧
        w2.objs[b]? = some base ∧ w2.polls = w1.polls ∧
        ∀ tmo : Nat → Bool,
          makeBaseLP ctx1 tmo w2 =
            .ok (some w2.objs.length, ctx1, { objs := w2.objs ++ [base], polls := w2.polls }) ∧
          (w2.objs ++ [base])[w2.objs.length]? = some base := by
  have key : ∃ b base, ctx1.base_lp = some b ∧ h1 ≠ b ∧
      w1.objs[h1]? = some base ∧ w1.objs[b]? = some base := by
    cases hb0 : ctx0.base_lp with
    | some b0 =>
      cases hobj : w0.objs[b0]? with
      | none =>
        unfold makeBaseLP at hfirst
        simp [hb0, hobj] at hfirst
      | some base =>
        rw [makeBaseLP_cached ctx0 tmo0 w0 b0 base hb0 hobj] at hfirst
        simp only [Except.ok.injEq, Prod.mk.injEq, Option.some.injEq] at hfirst
        obtain ⟨rfl, rfl, rfl⟩ := hfirst
        have hlt : b0 < w0.objs.length := by
          rcases Nat.lt_or_ge b0 w0.objs.length with hl | hl
          · exact hl
          · rw [List.getElem?_eq_none hl] at hobj
            cases hobj
        refine ⟨b0, base, hb0, by omega, by simp, ?_⟩
        simp only [List.getElem?_append_left hlt, hobj]
    | none =>
      rw [makeBaseLP_uncached ctx0 tmo0 w0 hb0] at hfirst
      split at hfirst
      · cases hfirst
      · cases hfirst
      · rename_i lp polls1 _
        simp only [Except.ok.injEq, Prod.mk.injEq, Option.some.injEq] at hfirst
        obtain ⟨rfl, rfl, rfl⟩ := hfirst
        have happ : w0.objs ++ [lp] ++ [lp] = w0.objs ++ [lp, lp] := by simp
        refine ⟨w0.objs.length, lp, rfl, by omega, ?_, ?_⟩
        · rw [happ, List.getElem?_append_right (by omega)]
          simp
        · rw [happ, List.getElem?_append_right (by omega)]
          simp
  obtain ⟨b, base, hb, hne, hh1, hbase⟩ := key
  refine ⟨b, base, hb, hne, hh1, hbase, ?_⟩
  intro actions
  have hc : cached_at (ctx1, w1, [h1]) b base :=
    ⟨hb, hbase, by simp only [List.mem_singleton]; exact fun h => hne h.symm⟩
  obtain ⟨⟨ctx2, w2, handed2⟩, hrun, ⟨hb2, hobj2, _⟩, hctx, hpolls⟩ :=
    cached_at_client_run b base actions _ hc
  simp only at hb2 hobj2 hctx hpolls
  subst hctx
  refine ⟨w2, handed2, hrun, hobj2, hpolls,
    fun tmo => ⟨makeBaseLP_cached ctx2 tmo w2 b base hb2 hobj2, ?_⟩⟩
  simp

theorem cached_base_is_reused_witness :
    makeBaseLP ⟨net_move, fun _ => 0, none⟩ never ⟨[], 0⟩
      = .ok (some 1, ⟨net_move, fun _ => 0, some 0⟩, ⟨[move_base, move_base], 4⟩) ∧
    ∃ b base, (⟨net_move, fun _ => 0, some 0⟩ : SimplificationContext).base_lp = some b ∧
      1 ≠ b ∧
      (⟨[move_base, move_base], 4⟩ : World).objs[1]? = some base ∧
      (⟨[move_base, move_base], 4⟩ : World).objs[b]? = some base ∧
      ∀ actions : List Action, ∃ (w2 : World) (handed2 : List Nat),
        client_run (⟨net_move, fun _ => 0, some 0⟩, ⟨[move_base, move_base], 4⟩, [1]) actions
          = some (⟨net_move, fun _ => 0, some 0⟩, w2, handed2) ∧
        w2.objs[b]? = some base ∧
        w2.polls = (⟨[move_base, move_base], 4⟩ : World).polls ∧
        ∀ tmo : Nat → Bool,
          makeBaseLP ⟨net_move, fun _ => 0, some 0⟩ tmo w2 =
            .ok (some w2.objs.length, ⟨net_move, fun _ => 0, some 0⟩,
              { objs := w2.objs ++ [base], polls := w2.polls }) ∧
          (w2.objs ++ [base])[w2.objs.length]? = some base :=
  ⟨rfl, cached_base_is_reused ⟨net_move, fun _ => 0, none⟩ never ⟨[], 0⟩ 1
      ⟨net_move, fun _ => 0, some 0⟩ ⟨[move_base, move_base], 4⟩ rfl⟩

/-- A run of the client on the two-place net: after the first call the caller
overwrites the problem it was handed and calls again with every `timeout()`
check firing; the second call still returns a problem, equal to the cached
base, and no `timeout()` check is made. -/
theorem client_run_example :
    client_run (⟨net_move, fun _ => 0, some 0⟩, ⟨[move_base, move_base], 4⟩, [1])
        [.mutate 1 scribble, .call always]
      = some (⟨net_move, fun _ => 0, some 0⟩, ⟨[move_base, scribble, move_base], 4⟩, [2, 1]) ∧
    (move_base.m, move_base.n) = (5, 2) ∧
    (move_base.coef 1 1, move_base.coef 2 1) = (-1, 1) :=
  ⟨rfl, by decide, by decide⟩


/-- A run of the column loop that ends without a problem has stopped at the
first `timeout()` check that fired. -/
theorem column_loop_none (net : PetriNet) (tmo : Nat → Bool) :
    ∀ (k t : Nat) (lp : GlpProb) (polls polls1 : Nat),
    column_loop net tmo k t lp polls = .ok (none, polls1) →
    ∃ j, j < k ∧ polls1 = polls + j + 1 ∧ tmo (polls + j) = true ∧
      ∀ i, i < j → tmo (polls + i) = false := by
  intro k
  induction k with
  | zero =>
    intro t lp polls polls1 h
    simp [column_loop] at h
  | succ k ih =>
    intro t lp polls polls1 h
    simp only [column_loop] at h
    by_cases hov : net.numberOfPlaces < (merge_walk (net.preset t) (net.postset t)).length
    · simp [hov] at h
    simp only [if_neg hov] at h
    cases hset : glp_set_mat_col lp (t + 1)
        ((merge_walk (net.preset t) (net.postset t)).length : Int)
        (0 :: (merge_walk (net.preset t) (net.postset t)).map Prod.fst)
        (0 :: (merge_walk (net.preset t) (net.postset t)).map Prod.snd) with
    | error e => simp [hset] at h
    | ok lp2 =>
      simp only [hset] at h
      by_cases htmo : tmo polls = true
      · simp only [if_pos htmo, Except.ok.injEq, Prod.mk.injEq, true_and] at h
        exact ⟨0, by omega, by omega, by simpa using htmo, fun i hi => by omega⟩
      · simp only [if_neg htmo] at h
        obtain ⟨j, hj, hp, hfire, hbefore⟩ := ih (t + 1) lp2 (polls + 1) polls1 h
        refine ⟨j + 1, by omega, by omega, ?_, ?_⟩
        · rwa [show polls + (j + 1) = polls + 1 + j by omega]
        · intro i hi
          rcases Nat.eq_zero_or_pos i with rfl | hpos
          · simpa using htmo
          · have := hbefore (i - 1) (by omega)
            rwa [show polls + 1 + (i - 1) = polls + i by omega] at this

/-- A run of the row-bounds loop that ends without a problem has stopped at
the first `timeout()` check that fired. -/
theorem bounds_loop_none (marking : Nat → Nat) (tmo : Nat → Bool) :
    ∀ (k p rowno : Nat) (lp : GlpProb) (polls polls1 : Nat),
    bounds_loop marking tmo k p rowno lp polls = .ok (none, polls1) →
    ∃ j, j < k ∧ polls1 = polls + j + 1 ∧ tmo (polls + j) = true ∧
      ∀ i, i < j → tmo (polls + i) = false := by
  intro k
  induction k with
  | zero =>
    intro p rowno lp polls polls1 h
    simp [bounds_loop] at h
  | succ k ih =>
    intro p rowno lp polls polls1 h
    rw [bounds_loop] at h
    cases hset : glp_set_row_bnds lp rowno .GLP_LO (.fin (0 - (marking p : Int))) .infty with
    | error e => rw [hset] at h; cases h
    | ok lp2 =>
      rw [hset] at h
      simp only at h
      by_cases htmo : tmo polls = true
      · simp only [if_pos htmo, Except.ok.injEq, Prod.mk.injEq, true_and] at h
        exact ⟨0, by omega, by omega, by simpa using htmo, fun i hi => by omega⟩
      · simp only [if_neg htmo] at h
        obtain ⟨j, hj, hp, hfire, hbefore⟩ := ih (p + 1) (rowno + 1) lp2 (polls + 1) polls1 h
        refine ⟨j + 1, by omega, by omega, ?_, ?_⟩
        · rwa [show polls + (j + 1) = polls + 1 + j by omega]
        · intro i hi
          rcases Nat.eq_zero_or_pos i with rfl | hpos
          · simpa using htmo
          · have := hbefore (i - 1) (by omega)
            rwa [show polls + 1 + (i - 1) = polls + i by omega] at this

/-- A run of `buildBase` that returns `nullptr` has stopped at the first
`timeout()` check that fired, one of the entry check, the checks after the
columns and the checks after the state-equation rows. -/
theorem buildBase_none (net : PetriNet) (marking : Nat → Nat) (tmo : Nat → Bool)
    (polls polls1 : Nat) (h : buildBase net marking tmo polls = .ok (none, polls1)) :
    ∃ j, j ≤ net.numberOfTransitions + net.numberOfPlaces ∧ polls1 = polls + j + 1 ∧
      tmo (polls + j) = true ∧ ∀ i, i < j → tmo (polls + i) = false := by
  unfold buildBase at h
  by_cases h0 : tmo polls = true
  · simp only [if_pos h0, Except.ok.injEq, Prod.mk.injEq, true_and] at h
    exact ⟨0, by omega, by omega, by simpa using h0, fun i hi => by omega⟩
  rw [if_neg h0] at h
  simp only [glp_create_prob] at h
  split at h
  · cases h
  rename_i lp1 hcols
  split at h
  · cases h
  rename_i lp2 hrows
  split at h
  · cases h
  · rename_i pollsA hcl
    simp only [Except.ok.injEq, Prod.mk.injEq, true_and] at h
    subst h
    obtain ⟨j, hj, hp, hfire, hbefore⟩ := column_loop_none net tmo _ _ _ _ _ hcl
    refine ⟨j + 1, by omega, by omega, ?_, ?_⟩
    · rwa [show polls + (j + 1) = polls + 1 + j by omega]
    · intro i hi
      rcases Nat.eq_zero_or_pos i with rfl | hpos
      · simpa using h0
      · have := hbefore (i - 1) (by omega)
        rwa [show polls + 1 + (i - 1) = polls + i by omega] at this
  rename_i lp3 pollsA hcl
  obtain ⟨_, _, _, hp3, ht3, _⟩ := column_loop_ok net tmo _ _ _ _ _ _ hcl
  split at h
  · cases h
  · rename_i pollsB hbl
    simp only [Except.ok.injEq, Prod.mk.injEq, true_and] at h
    subst h
    obtain ⟨j, hj, hp, hfire, hbefore⟩ := bounds_loop_none marking tmo _ _ _ _ _ _ hbl
    refine ⟨net.numberOfTransitions + 1 + j, by omega, by omega, ?_, ?_⟩
    · rwa [show polls + (net.numberOfTransitions + 1 + j) = pollsA + j by omega]
    · intro i hi
      rcases Nat.eq_zero_or_pos i with rfl | hpos
      · simpa using h0
      · by_cases hle : i ≤ net.numberOfTransitions
        · have := ht3 (i - 1) (by omega)
          rwa [show polls + 1 + (i - 1) = polls + i by omega] at this
        · have := hbefore (i - 1 - net.numberOfTransitions) (by omega)
          rwa [show pollsA + (i - 1 - net.numberOfTransitions) = polls + i by omega] at this
  split at h
  · cases h
  split at h
  · cases h
  · cases h

/-- When the entry check of `buildBase` passes, the rest of the run is the
column loop on a problem with `numberOfTransitions + 1` columns and
`numberOfPlaces + 1` rows, then the row-bounds loop, then the second block. -/
theorem buildBase_unfold (net : PetriNet) (marking : Nat → Nat) (tmo : Nat → Bool)
    (polls : Nat) (h0 : tmo polls = false) :
    buildBase net marking tmo polls =
      match column_loop net tmo net.numberOfTransitions 0
          ⟨0 + (net.numberOfPlaces + 1), 0 + (net.numberOfTransitions + 1), fun _ _ => 0,
            fun _ => ⟨.GLP_FR, .fin 0, .fin 0⟩⟩ (polls + 1) with
      | .error e => .error e
      | .ok (none, polls1) => .ok (none, polls1)
      | .ok (some lp3, polls1) =>
      match bounds_loop marking tmo net.numberOfPlaces 0 1 lp3 polls1 with
      | .error e => .error e
      | .ok (none, polls2) => .ok (none, polls2)
      | .ok (some (lp4, rowno), polls2) =>
      match glp_add_rows lp4 net.numberOfPlaces with
      | .error e => .error e
      | .ok lp5 =>
      match second_block_loop net net.numberOfPlaces 0 rowno lp5 with
      | .error e => .error e
      | .ok lp6 => .ok (some lp6, polls2) := by
  unfold buildBase
  rw [h0]
  rfl

/-- On a net with sorted arc lists, a `timeout()` check that fires after a
column or after a state-equation row makes `buildBase` return `nullptr`. -/
theorem buildBase_timeout (net : PetriNet) (marking : Nat → Nat) (tmo : Nat → Bool)
    (hs : sorted_arcs net) (polls k : Nat) (hk1 : 1 ≤ k)
    (hk2 : k ≤ net.numberOfTransitions + net.numberOfPlaces)
    (hbefore : ∀ i, i < k → tmo (polls + i) = false) (hfire : tmo (polls + k) = true) :
    buildBase net marking tmo polls = .ok (none, polls + k + 1) := by
  have h0 : tmo polls = false := by simpa using hbefore 0 (by omega)
  rw [buildBase_unfold net marking tmo polls h0]
  obtain ⟨hc1, hc2⟩ := column_loop_run net tmo hs net.numberOfTransitions 0
    ⟨0 + (net.numberOfPlaces + 1), 0 + (net.numberOfTransitions + 1), fun _ _ => 0,
      fun _ => ⟨.GLP_FR, .fin 0, .fin 0⟩⟩ (polls + 1) (by omega) (by simp) (by simp)
  by_cases hk : k ≤ net.numberOfTransitions
  · have := hc1 (k - 1) (by omega)
      (by rwa [show polls + 1 + (k - 1) = polls + k by omega])
      (by
        intro i hi
        have := hbefore (i + 1) (by omega)
        rwa [show polls + (i + 1) = polls + 1 + i by omega] at this)
    rw [this, show polls + 1 + (k - 1) + 1 = polls + k + 1 by omega]
  · obtain ⟨lp3, hcl⟩ := hc2 (by
      intro i hi
      have := hbefore (i + 1) (by omega)
      rwa [show polls + (i + 1) = polls + 1 + i by omega] at this)
    have hm3 := (column_loop_ok net tmo _ _ _ _ _ _ hcl).1
    simp only at hm3
    rw [hcl]
    simp only
    obtain ⟨hb1, _⟩ := bounds_loop_run marking tmo net.numberOfPlaces 0 1 lp3
      (polls + 1 + net.numberOfTransitions) (by omega) (by omega)
    have := hb1 (k - 1 - net.numberOfTransitions) (by omega)
      (by rwa [show polls + 1 + net.numberOfTransitions + (k - 1 - net.numberOfTransitions)
        = polls + k by omega])
      (by
        intro i hi
        have := hbefore (i + 1 + net.numberOfTransitions) (by omega)
        rwa [show polls + (i + 1 + net.numberOfTransitions)
          = polls + 1 + net.numberOfTransitions + i by omega] at this)
    rw [this, show polls + 1 + net.numberOfTransitions + (k - 1 - net.numberOfTransitions) + 1
      = polls + k + 1 by omega]

/-- C10: let the `timeout()` check number `k` after the entry check be the first
to fire, `1 ≤ k ≤ numberOfTransitions + numberOfPlaces` (the check after the
column of transition `k - 1`, or after the bounds of state-equation row
`k - numberOfTransitions`). Then a run of `buildBase` that is not aborted
returns `nullptr` right after that check, and on a net with sorted arc lists
the run is not aborted; `makeBaseLP` on the uninitialized context then returns
`nullptr` and leaves context and objects as they were, and the next
`makeBaseLP` call runs `buildBase` again and caches and returns what it
builds. -/
theorem timeout_mid_construction (net : PetriNet) (marking : Nat → Nat) (tmo : Nat → Bool)
    (w : World) (k : Nat) (hk1 : 1 ≤ k)
    (hk2 : k ≤ net.numberOfTransitions + net.numberOfPlaces)
    (hbefore : ∀ i, i < k → tmo (w.polls + i) = false) (hfire : tmo (w.polls + k) = true) :
    (∀ r, buildBase net marking tmo w.polls = .ok r → r = (none, w.polls + k + 1)) ∧
    (sorted_arcs net → buildBase net marking tmo w.polls = .ok (none, w.polls + k + 1)) ∧
    (buildBase net marking tmo w.polls = .ok (none, w.polls + k + 1) →
      makeBaseLP ⟨net, marking, none⟩ tmo w
        = .ok (none, ⟨net, marking, none⟩, { objs := w.objs, polls := w.polls + k + 1 }) ∧
      ∀ tmo2 : Nat → Bool,
        makeBaseLP ⟨net, marking, none⟩ tmo2 { objs := w.objs, polls := w.polls + k + 1 } =
          match buildBase net marking tmo2 (w.polls + k + 1) with
          | .error e => .error e
          | .ok (none, polls1) =>
              .ok (none, ⟨net, marking, none⟩, { objs := w.objs, polls := polls1 })
          | .ok (some lp, polls1) =>
              .ok (some (w.objs.length + 1), ⟨net, marking, some w.objs.length⟩,
                { objs := w.objs ++ [lp] ++ [lp], polls := polls1 })) := by
  refine ⟨?_, fun hs => buildBase_timeout net marking tmo hs w.polls k hk1 hk2 hbefore hfire, ?_⟩
  · rintro ⟨r1, polls1⟩ hr
    cases r1 with
    | some lp =>
      have := (buildBase_ok net marking tmo w.polls lp polls1 hr).2.2.2.1 k hk2
      rw [hfire] at this
      cases this
    | none =>
      obtain ⟨j, _, hp, hj, hjb⟩ := buildBase_none net marking tmo w.polls polls1 hr
      have hjk : j = k := by
        rcases Nat.lt_trichotomy j k with hlt | heq | hgt
        · have := hbefore j hlt
          rw [hj] at this
          cases this
        · exact heq
        · have := hjb k hgt
          rw [hfire] at this
          cases this
      subst hjk
      rw [hp]
  · intro hb
    refine ⟨?_, ?_⟩
    · rw [makeBaseLP_uncached _ tmo w rfl]
      simp only [hb]
    · intro tmo2
      rw [makeBaseLP_uncached _ tmo2 _ rfl]

theorem timeout_mid_construction_witness :
    1 ≤ 2 ∧ 2 ≤ net_move.numberOfTransitions + net_move.numberOfPlaces ∧
    (∀ i, i < 2 → (fun j => j == 2) ((⟨[], 0⟩ : World).polls + i) = false) ∧
    (fun j => j == 2) ((⟨[], 0⟩ : World).polls + 2) = true ∧
    sorted_arcs net_move ∧
    buildBase net_move (fun _ => 0) (fun j => j == 2) (⟨[], 0⟩ : World).polls
      = .ok (none, (⟨[], 0⟩ : World).polls + 2 + 1) ∧
    makeBaseLP ⟨net_move, fun _ => 0, none⟩ (fun j => j == 2) ⟨[], 0⟩
      = .ok (none, ⟨net_move, fun _ => 0, none⟩,
          { objs := (⟨[], 0⟩ : World).objs, polls := (⟨[], 0⟩ : World).polls + 2 + 1 }) :=
  ⟨by decide, by decide, by decide, by decide, by decide,
    (timeout_mid_construction net_move (fun _ => 0) (fun j => j == 2) ⟨[], 0⟩ 2
      (by decide) (by decide) (by decide) (by decide)).2.1 (by decide),
    ((timeout_mid_construction net_move (fun _ => 0) (fun j => j == 2) ⟨[], 0⟩ 2
      (by decide) (by decide) (by decide) (by decide)).2.2 rfl).1⟩

/-- A `makeBaseLP` call on an uninitialized context whose entry `timeout()`
check fires returns `nullptr` without an error and leaves context and objects
as they were. -/
theorem makeBaseLP_expired (ctx : SimplificationContext) (tmo : Nat → Bool) (w : World)
    (hb : ctx.base_lp = none) (ht : tmo w.polls = true) :
    makeBaseLP ctx tmo w = .ok (none, ctx, { objs := w.objs, polls := w.polls + 1 }) := by
  rw [makeBaseLP_uncached ctx tmo w hb]
  unfold buildBase
  rw [if_pos ht]

/-- C9, as the code behaves: on the well-formed net with two places and one
transition that puts a token into place 0, a first `makeBaseLP` call whose
entry `timeout()` check fires returns `nullptr` and caches nothing, but the
next call, made when `timeout()` no longer holds, does not return a problem:
the second block finds no transition that changes place 1,
`glp_set_mat_row` is given the length `-1`, and the run is aborted. -/
theorem retry_after_timeout_aborts :
    well_formed net_idle_place ∧
    makeBaseLP ⟨net_idle_place, fun _ => 0, none⟩ expired_at_first ⟨[], 0⟩
      = .ok (none, ⟨net_idle_place, fun _ => 0, none⟩, ⟨[], 1⟩) ∧
    (expired_at_first 1 = false ∧ expired_at_first 2 = false ∧ expired_at_first 3 = false ∧
      expired_at_first 4 = false) ∧
    makeBaseLP ⟨net_idle_place, fun _ => 0, none⟩ expired_at_first ⟨[], 1⟩
      = .error .glpk_error ∧
    makeBaseLP ⟨net_idle_place, fun _ => 0, none⟩ never ⟨[], 1⟩ = .error .glpk_error ∧
    (effect_loop net_idle_place 1 net_idle_place.numberOfTransitions 0
      (List.replicate net_idle_place.numberOfTransitions 0) []).2 = [] ∧
    (([] : List Nat).length : Int) - 1 = -1 :=
  ⟨by decide, rfl, by decide, rfl, rfl, rfl, by decide⟩


/-! ## Theorems: name resolution -/

theorem map_find_eq_none_iff {α : Type} (m : List (String × α)) (s : String) :
    map_find m s = none ↔ s ∉ m.map Prod.fst := by
  induction m with
  | nil => simp [map_find]
  | cons kv m ih =>
    obtain ⟨k, v⟩ := kv
    by_cases hk : k = s
    · simp [map_find, hk]
    · have hne : ¬ s = k := fun h => hk h.symm
      simp [map_find, hk, hne, ih]

theorem map_find_isSome_iff {α : Type} (m : List (String × α)) (s : String) :
    (∃ v, map_find m s = some v) ↔ s ∈ m.map Prod.fst := by
  constructor
  · rintro ⟨v, hv⟩
    by_contra hc
    rw [(map_find_eq_none_iff m s).mpr hc] at hv
    cases hv
  · intro h
    cases hf : map_find m s with
    | some v => exact ⟨v, rfl⟩
    | none => exact absurd h ((map_find_eq_none_iff m s).mp hf)

theorem to_int_of_lt (v : Nat) (h : v < 2147483648) : to_int v = (v : Int) := by
  unfold to_int
  have hmod : v % 4294967296 = v := Nat.mod_eq_of_lt (by omega)
  rw [hmod, if_pos h]

theorem to_int_of_ge (v : Nat) (h1 : 2147483648 ≤ v) (h2 : v < 4294967296) :
    to_int v = (v : Int) - 4294967296 := by
  unfold to_int
  have hmod : v % 4294967296 = v := Nat.mod_eq_of_lt h2
  rw [hmod, if_neg (by omega)]

/-- C11 as stated fails: with the place `"p"` stored under index 2147483648,
`resolve("p", true)` reports success with the offset -2147483648, which is
negative and not the stored index. -/
theorem resolve_offset_negative :
    (AnalysisContext.resolve ⟨[("p", 2147483648)], []⟩ "p" true).2 = ⟨-2147483648, true⟩ ∧
    map_find (NameMaps.placeNames ⟨[("p", 2147483648)], []⟩) "p" = some 2147483648 ∧
    (2147483648 : Nat) < 4294967296 ∧
    (AnalysisContext.resolve ⟨[("p", 2147483648)], []⟩ "p" true).2.offset < 0 ∧
    (AnalysisContext.resolve ⟨[("p", 2147483648)], []⟩ "p" true).2.offset
      ≠ ((2147483648 : Nat) : Int) := by
  decide

/-- C11, amended: for every identifier present in the map selected by `place`
with stored index `v`, `resolve` returns success, and for `v` below 2^31 the
offset is non-negative and equal to `v`; for a larger 32-bit `v` the offset is
`v - 2^32`, the index read as a signed number. -/
theorem resolve_hit (maps : NameMaps) (identifier : String) (place : Bool) (v : Nat)
    (hfind : map_find (if place then maps.placeNames else maps.transitionNames) identifier
      = some v) :
    (AnalysisContext.resolve maps identifier place).2.success = true ∧
    (v < 2147483648 →
      (AnalysisContext.resolve maps identifier place).2.offset = (v : Int) ∧
      0 ≤ (AnalysisContext.resolve maps identifier place).2.offset) ∧
    (2147483648 ≤ v → v < 4294967296 →
      (AnalysisContext.resolve maps identifier place).2.offset = (v : Int) - 4294967296) := by
  have heq : AnalysisContext.resolve maps identifier place = (maps, ⟨to_int v, true⟩) := by
    unfold AnalysisContext.resolve
    simp only [hfind]
  rw [heq]
  refine ⟨rfl, ?_, ?_⟩
  · intro hv
    have h : to_int v = (v : Int) := to_int_of_lt v hv
    exact ⟨h, le_of_le_of_eq (Int.ofNat_nonneg v) h.symm⟩
  · intro h1 h2
    exact to_int_of_ge v h1 h2

theorem resolve_hit_witness :
    map_find (if true then NameMaps.placeNames ⟨[("p", 0), ("q", 7)], [("t", 3)]⟩
      else NameMaps.transitionNames ⟨[("p", 0), ("q", 7)], [("t", 3)]⟩) "q" = some 7 ∧
    (AnalysisContext.resolve ⟨[("p", 0), ("q", 7)], [("t", 3)]⟩ "q" true).2 = ⟨7, true⟩ ∧
    (AnalysisContext.resolve ⟨[("p", 0), ("q", 7)], [("t", 3)]⟩ "q" true).2.success = true ∧
    (AnalysisContext.resolve ⟨[("p", 0), ("q", 7)], [("t", 3)]⟩ "q" true).2.offset = (7 : Int) ∧
    0 ≤ (AnalysisContext.resolve ⟨[("p", 0), ("q", 7)], [("t", 3)]⟩ "q" true).2.offset :=
  ⟨by decide, by decide,
    (resolve_hit ⟨[("p", 0), ("q", 7)], [("t", 3)]⟩ "q" true 7 (by decide)).1,
    ((resolve_hit ⟨[("p", 0), ("q", 7)], [("t", 3)]⟩ "q" true 7 (by decide)).2.1
      (by decide)).1,
    ((resolve_hit ⟨[("p", 0), ("q", 7)], [("t", 3)]⟩ "q" true 7 (by decide)).2.1
      (by decide)).2⟩

/-- C12: `resolve(id, place)` reports success exactly when `id` is a key of the
map selected by `place`; on a miss the result is `success = false` with
`offset = -1`; the result does not depend on the other map, so an identifier
that is a key of one map only is not found in the other; and the call leaves
both maps as they were. -/
theorem resolve_selects_map (pl tr : List (String × Nat)) (identifier : String) :
    ((AnalysisContext.resolve ⟨pl, tr⟩ identifier true).2.success = true ↔
      identifier ∈ pl.map Prod.fst) ∧
    ((AnalysisContext.resolve ⟨pl, tr⟩ identifier false).2.success = true ↔
      identifier ∈ tr.map Prod.fst) ∧
    (identifier ∉ pl.map Prod.fst →
      (AnalysisContext.resolve ⟨pl, tr⟩ identifier true).2 = ⟨-1, false⟩) ∧
    (identifier ∉ tr.map Prod.fst →
      (AnalysisContext.resolve ⟨pl, tr⟩ identifier false).2 = ⟨-1, false⟩) ∧
    (∀ tr2, (AnalysisContext.resolve ⟨pl, tr2⟩ identifier true).2
      = (AnalysisContext.resolve ⟨pl, tr⟩ identifier true).2) ∧
    (∀ pl2, (AnalysisContext.resolve ⟨pl2, tr⟩ identifier false).2
      = (AnalysisContext.resolve ⟨pl, tr⟩ identifier false).2) ∧
    (∀ place, (AnalysisContext.resolve ⟨pl, tr⟩ identifier place).1 = ⟨pl, tr⟩) := by
  have hsel : ∀ (m : List (String × Nat)),
      ((match map_find m identifier with
        | some v => ((⟨pl, tr⟩ : NameMaps), (⟨to_int v, true⟩ : ResolutionResult))
        | none => (⟨pl, tr⟩, ⟨-1, false⟩)).2.success = true ↔
        identifier ∈ m.map Prod.fst) := by
    intro m
    cases hf : map_find m identifier with
    | some v =>
      simp only [true_iff]
      exact (map_find_isSome_iff m identifier).mp ⟨v, hf⟩
    | none =>
      simp only [Bool.false_eq_true, false_iff]
      exact (map_find_eq_none_iff m identifier).mp hf
  refine ⟨hsel pl, hsel tr, ?_, ?_, ?_, ?_, ?_⟩
  rotate_left 2
  · intro tr2
    unfold AnalysisContext.resolve
    simp only [if_true]
    cases map_find pl identifier <;> rfl
  · intro pl2
    unfold AnalysisContext.resolve
    simp only [Bool.false_eq_true, if_false]
    cases map_find tr identifier <;> rfl
  rotate_left 1
  · intro h
    unfold AnalysisContext.resolve
    simp only [if_true, (map_find_eq_none_iff pl identifier).mpr h]
  · intro h
    unfold AnalysisContext.resolve
    simp only [Bool.false_eq_true, if_false, (map_find_eq_none_iff tr identifier).mpr h]
  · intro place
    unfold AnalysisContext.resolve
    simp only
    split <;> rfl

/-- An identifier registered only as a place is found as a place and not as a
transition, and the other way round. -/
theorem resolve_examples :
    (AnalysisContext.resolve ⟨[("a", 4)], [("b", 5)]⟩ "a" true).2 = ⟨4, true⟩ ∧
    (AnalysisContext.resolve ⟨[("a", 4)], [("b", 5)]⟩ "a" false).2 = ⟨-1, false⟩ ∧
    (AnalysisContext.resolve ⟨[("a", 4)], [("b", 5)]⟩ "b" false).2 = ⟨5, true⟩ ∧
    (AnalysisContext.resolve ⟨[("a", 4)], [("b", 5)]⟩ "b" true).2 = ⟨-1, false⟩ := by
  decide


namespace ColoredAnalysisContext

/-- Calling the recording callback once for each name of a list, in order,
appends the list to the log. -/
theorem foldl_record (names : List String) (log : List String) :
    names.foldl (fun acc e => record e acc) log = log ++ names := by
  induction names generalizing log with
  | nil => simp
  | cons n names ih =>
    simp only [List.foldl_cons]
    rw [ih]
    simp [record]

theorem foldl_record_snd (insts : List (Nat × String)) (log : List String) :
    insts.foldl (fun acc e => record e.2 acc) log = log ++ insts.map Prod.snd := by
  induction insts generalizing log with
  | nil => simp
  | cons n insts ih =>
    simp only [List.foldl_cons]
    rw [ih]
    simp [record]

/-- C13: for every symbolic name present in the colored place map with the
instances `pinsts`, whatever the colored transition map holds, `resolvePlace`
returns true and has called the callback once for each instance, in the
stored order and with its concrete name: the state after the call is the fold
of the callback over the instances, and the recording callback has logged
exactly the concrete names, `pinsts.length` of them; with no instance the
callback is not called and the result is still true. Likewise, for every
symbolic name present in the colored transition map with the instances
`tinsts`, whatever the colored place map holds, `resolveTransition` returns
true and has called the callback once for each instance in the stored order. -/
theorem resolve_colored_hit (ctx : ColoredAnalysisContext) :
    (∀ (pname : String) (pinsts : List (Nat × String)),
      map_find ctx.coloredPlaceNames pname = some pinsts →
      (∀ (σ : Type) (fn : String → σ → σ) (s : σ),
        resolvePlace ctx pname fn s = (true, pinsts.foldl (fun acc e => fn e.2 acc) s)) ∧
      (∀ log, resolvePlace ctx pname record log = (true, log ++ pinsts.map Prod.snd)) ∧
      ((resolvePlace ctx pname record []).2 = pinsts.map Prod.snd) ∧
      ((resolvePlace ctx pname record []).2.length = pinsts.length) ∧
      (pinsts = [] → ∀ (σ : Type) (fn : String → σ → σ) (s : σ),
        resolvePlace ctx pname fn s = (true, s))) ∧
    (∀ (tname : String) (tinsts : List String),
      map_find ctx.coloredTransitionNames tname = some tinsts →
      (∀ (σ : Type) (fn : String → σ → σ) (s : σ),
        resolveTransition ctx tname fn s = (true, tinsts.foldl (fun acc e => fn e acc) s)) ∧
      (∀ log, resolveTransition ctx tname record log = (true, log ++ tinsts)) ∧
      ((resolveTransition ctx tname record []).2 = tinsts) ∧
      ((resolveTransition ctx tname record []).2.length = tinsts.length) ∧
      (tinsts = [] → ∀ (σ : Type) (fn : String → σ → σ) (s : σ),
        resolveTransition ctx tname fn s = (true, s))) := by
  refine ⟨?_, ?_⟩
  · intro pname pinsts hp
    have h1 : ∀ (σ : Type) (fn : String → σ → σ) (s : σ),
        resolvePlace ctx pname fn s = (true, pinsts.foldl (fun acc e => fn e.2 acc) s) := by
      intro σ fn s
      unfold resolvePlace
      simp only [hp]
    refine ⟨h1, ?_, ?_, ?_, ?_⟩
    · intro log
      rw [h1, foldl_record_snd]
    · rw [h1, foldl_record_snd]
      simp
    · rw [h1, foldl_record_snd]
      simp
    · intro he σ fn s
      rw [h1, he]
      rfl
  · intro tname tinsts ht
    have h2 : ∀ (σ : Type) (fn : String → σ → σ) (s : σ),
        resolveTransition ctx tname fn s
          = (true, tinsts.foldl (fun acc e => fn e acc) s) := by
      intro σ fn s
      unfold resolveTransition
      simp only [ht]
    refine ⟨h2, ?_, ?_, ?_, ?_⟩
    · intro log
      rw [h2, foldl_record]
    · rw [h2, foldl_record]
      simp
    · rw [h2, foldl_record]
      simp
    · intro he σ fn s
      rw [h2, he]
      rfl

theorem resolve_colored_hit_witness :
    (map_find (ColoredAnalysisContext.coloredPlaceNames
        ⟨[("P", [(0, "P_a"), (1, "P_b")])], []⟩) "P" = some [(0, "P_a"), (1, "P_b")] ∧
      resolvePlace ⟨[("P", [(0, "P_a"), (1, "P_b")])], []⟩ "P" record []
        = (true, [] ++ [(0, "P_a"), (1, "P_b")].map Prod.snd) ∧
      (resolvePlace ⟨[("P", [(0, "P_a"), (1, "P_b")])], []⟩ "P" record []).2
        = ["P_a", "P_b"]) ∧
    (map_find (ColoredAnalysisContext.coloredTransitionNames
        ⟨[], [("T", ["T_x", "T_y", "T_z"])]⟩) "T" = some ["T_x", "T_y", "T_z"] ∧
      resolveTransition ⟨[], [("T", ["T_x", "T_y", "T_z"])]⟩ "T" record []
        = (true, [] ++ ["T_x", "T_y", "T_z"]) ∧
      (resolveTransition ⟨[], [("T", ["T_x", "T_y", "T_z"])]⟩ "T" record []).2.length = 3) ∧
    (map_find colored_example.coloredPlaceNames "Q" = some [] ∧
      ∀ (σ : Type) (fn : String → σ → σ) (s : σ),
        resolvePlace colored_example "Q" fn s = (true, s)) :=
  ⟨⟨by decide,
      ((resolve_colored_hit ⟨[("P", [(0, "P_a"), (1, "P_b")])], []⟩).1 "P"
        [(0, "P_a"), (1, "P_b")] (by decide)).2.1 [],
      by decide⟩,
    ⟨by decide,
      ((resolve_colored_hit ⟨[], [("T", ["T_x", "T_y", "T_z"])]⟩).2 "T"
        ["T_x", "T_y", "T_z"] (by decide)).2.1 [],
      by decide⟩,
    ⟨by decide,
      ((resolve_colored_hit colored_example).1 "Q" [] (by decide)).2.2.2.2 rfl⟩⟩

/-- C14: for a symbolic name that is not a key of the colored place map,
`resolvePlace` returns false and does not call the callback: the state of the
caller is unchanged, and the recording callback has logged nothing. The same
holds for `resolveTransition` and the colored transition map. -/
theorem resolve_colored_miss (ctx : ColoredAnalysisContext) (pname tname : String)
    (hp : pname ∉ ctx.coloredPlaceNames.map Prod.fst)
    (ht : tname ∉ ctx.coloredTransitionNames.map Prod.fst) :
    (∀ (σ : Type) (fn : String → σ → σ) (s : σ), resolvePlace ctx pname fn s = (false, s)) ∧
    resolvePlace ctx pname record [] = (false, []) ∧
    (∀ (σ : Type) (fn : String → σ → σ) (s : σ),
      resolveTransition ctx tname fn s = (false, s)) ∧
    resolveTransition ctx tname record [] = (false, []) := by
  have h1 : ∀ (σ : Type) (fn : String → σ → σ) (s : σ),
      resolvePlace ctx pname fn s = (false, s) := by
    intro σ fn s
    unfold resolvePlace
    simp only [(map_find_eq_none_iff _ pname).mpr hp]
  have h2 : ∀ (σ : Type) (fn : String → σ → σ) (s : σ),
      resolveTransition ctx tname fn s = (false, s) := by
    intro σ fn s
    unfold resolveTransition
    simp only [(map_find_eq_none_iff _ tname).mpr ht]
  exact ⟨h1, h1 _ record [], h2, h2 _ record []⟩

theorem resolve_colored_miss_witness :
    "R" ∉ colored_example.coloredPlaceNames.map Prod.fst ∧
    "P" ∉ colored_example.coloredTransitionNames.map Prod.fst ∧
    resolvePlace colored_example "R" record [] = (false, []) ∧
    resolveTransition colored_example "P" record [] = (false, []) :=
  ⟨by decide, by decide,
    (resolve_colored_miss colored_example "R" "P" (by decide) (by decide)).2.1,
    (resolve_colored_miss colored_example "R" "P" (by decide) (by decide)).2.2.2⟩

end ColoredAnalysisContext


/-! ## Theorems: the base problem as a whole -/

/-- C15: for the net with two places and one transition that moves a token
from place 0 to place 1, with the marking (1, 0), `buildBase` returns a
problem with five rows, and both the all-zero vector and the vector with 1 in
column 1 satisfy every one of its rows. -/
theorem move_net_base_feasible :
    ∃ lp polls1, buildBase net_move marking_one_zero never 0 = .ok (some lp, polls1) ∧
      lp.m = 5 ∧ lp.n = 2 ∧
      (∀ i, i ≤ lp.m → row_holds lp (fun _ => 0) i) ∧
      (∀ i, i ≤ lp.m → row_holds lp (fun j => if j = 1 then 1 else 0) i) ∧
      (∀ j, j ≤ lp.n → firing_count net_move [] j = (fun _ => 0) j) ∧
      (∀ j, j ≤ lp.n → firing_count net_move [0] j = (fun j => if j = 1 then 1 else 0) j) :=
  ⟨_, _, rfl, by decide, by decide, by decide, by decide, by decide, by decide⟩

/-- C16, as the code behaves: on the net with one place and no transition, and
on the net with two places whose place 1 no transition touches, the second
block finds no transition for the place, the length `indices.size() - 1` that
it passes to `glp_set_mat_row` is `-1`, the library rejects it, and
`buildBase` is aborted although no `timeout()` check fires. -/
theorem second_block_length_negative :
    (effect_loop net_lone_place 0 net_lone_place.numberOfTransitions 0
      (List.replicate net_lone_place.numberOfTransitions 0) []).2 = [] ∧
    (((effect_loop net_lone_place 0 net_lone_place.numberOfTransitions 0
      (List.replicate net_lone_place.numberOfTransitions 0) []).2.length : Int) - 1 = -1) ∧
    ¬ sparse_ok (-1) (net_lone_place.numberOfTransitions + 1) [] [] ∧
    buildBase net_lone_place (fun _ => 0) never 0 = .error .glpk_error ∧
    (effect_loop net_idle_place 1 net_idle_place.numberOfTransitions 0
      (List.replicate net_idle_place.numberOfTransitions 0) []).2 = [] ∧
    buildBase net_idle_place (fun _ => 0) never 0 = .error .glpk_error :=
  ⟨rfl, by decide, by decide, rfl, rfl, rfl⟩

/-- C17, as the code behaves: on the net with two places and one transition,
let the budget expire after the four checks made at entry, after the column
and after the two state-equation rows, so that every later check would fire.
`buildBase` makes no further check: it builds the second block, returns the
same problem as when the budget never expires, and has called `timeout()`
four times. -/
theorem second_block_not_interruptible :
    expired_after 4 3 = false ∧ expired_after 4 4 = true ∧ expired_after 4 5 = true ∧
    buildBase net_move marking_one_zero (expired_after 4) 0
      = buildBase net_move marking_one_zero never 0 ∧
    ∃ lp, buildBase net_move marking_one_zero (expired_after 4) 0 = .ok (some lp, 4) ∧
      lp.m = 5 ∧ lp.row_bnds 3 = ⟨.GLP_LO, .fin 0, .infty⟩ ∧
      lp.row_bnds 4 = ⟨.GLP_LO, .fin 0, .infty⟩ :=
  ⟨by decide, by decide, by decide, rfl, _, rfl, by decide, by decide, by decide⟩


/-- The rows of the second block get the bounds `[0, +infinity)`; the rows
after the block are left as they were. -/
theorem second_block_loop_rows (net : PetriNet) :
    ∀ (k p rowno : Nat) (lp lp1 : GlpProb),
    second_block_loop net k p rowno lp = .ok lp1 →
    (∀ r, rowno ≤ r → r < rowno + k → lp1.row_bnds r = ⟨.GLP_LO, .fin 0, .infty⟩) ∧
    (∀ r, rowno + k ≤ r →
      lp1.row_bnds r = lp.row_bnds r ∧ ∀ c, lp1.coef r c = lp.coef r c) := by
  intro k
  induction k with
  | zero =>
    intro p rowno lp lp1 h
    simp only [second_block_loop, Except.ok.injEq] at h
    subst h
    exact ⟨fun r h1 h2 => by omega, fun _ _ => ⟨rfl, fun _ => rfl⟩⟩
  | succ k ih =>
    intro p rowno lp lp1 h
    simp only [second_block_loop] at h
    split at h
    · cases h
    · rename_i lp2 hrow
      split at h
      · cases h
      · rename_i lp3 hbnd
        obtain ⟨_, _, hb2, hc2⟩ := glp_set_mat_row_ok hrow
        obtain ⟨_, _, hc3, _, hb3⟩ := glp_set_row_bnds_ok hbnd
        obtain ⟨hin, hout⟩ := ih (p + 1) (rowno + 1) lp3 lp1 h
        obtain ⟨_, _, hbelow⟩ := second_block_loop_ok net k (p + 1) (rowno + 1) lp3 lp1 h
        refine ⟨?_, ?_⟩
        · intro r h1 h2
          by_cases hr : r = rowno
          · subst hr
            rw [(hbelow r (by omega)).1, hb3 r, if_pos rfl]
          · exact hin r (by omega) (by omega)
        · intro r hr
          obtain ⟨hb, hc⟩ := hout r (by omega)
          refine ⟨?_, ?_⟩
          · rw [hb, hb3 r, if_neg (by omega), hb2]
          · intro c
            rw [hc c, hc3, hc2 r c, if_neg (by omega)]

/-- A column that the LP library accepts has no entry below the last row. -/
theorem glp_set_mat_col_zero_row {lp lp1 : GlpProb} {j : Nat} {len : Int} {ind : List Nat}
    {val : List Int} (h : glp_set_mat_col lp j len ind val = .ok lp1) (i : Nat)
    (hi : lp.m < i) (hzero : ∀ c, lp.coef i c = 0) : ∀ c, lp1.coef i c = 0 := by
  intro c
  have hc := (glp_set_mat_col_ok h).2.2.2 i c
  unfold glp_set_mat_col at h
  split_ifs at h with hok
  obtain ⟨_, _, hrange, _⟩ := hok
  rw [hc]
  by_cases hcj : c = j
  · rw [if_pos hcj]
    apply sparse_get_of_not_mem
    intro hmem
    obtain ⟨e, he, rfl⟩ := List.mem_map.mp hmem
    have := (hrange e he).2
    omega
  · rw [if_neg hcj]
    exact hzero c

/-- The column loop puts no coefficient into a row below the last row. -/
theorem column_loop_zero_row (net : PetriNet) (tmo : Nat → Bool) (i : Nat) :
    ∀ (k t : Nat) (lp : GlpProb) (polls : Nat) (lp1 : GlpProb) (polls1 : Nat),
    column_loop net tmo k t lp polls = .ok (some lp1, polls1) →
    lp.m < i → (∀ c, lp.coef i c = 0) → ∀ c, lp1.coef i c = 0 := by
  intro k
  induction k with
  | zero =>
    intro t lp polls lp1 polls1 h _ hzero
    simp only [column_loop, Except.ok.injEq, Prod.mk.injEq, Option.some.injEq] at h
    obtain ⟨rfl, rfl⟩ := h
    exact hzero
  | succ k ih =>
    intro t lp polls lp1 polls1 h hi hzero
    simp only [column_loop] at h
    by_cases hov : net.numberOfPlaces < (merge_walk (net.preset t) (net.postset t)).length
    · simp [hov] at h
    simp only [if_neg hov] at h
    cases hset : glp_set_mat_col lp (t + 1)
        ((merge_walk (net.preset t) (net.postset t)).length : Int)
        (0 :: (merge_walk (net.preset t) (net.postset t)).map Prod.fst)
        (0 :: (merge_walk (net.preset t) (net.postset t)).map Prod.snd) with
    | error e => simp [hset] at h
    | ok lp2 =>
      simp only [hset] at h
      by_cases htmo : tmo polls = true
      · simp [htmo] at h
      simp only [if_neg htmo] at h
      have hm2 := (glp_set_mat_col_ok hset).1
      exact ih (t + 1) lp2 (polls + 1) lp1 polls1 h (by omega)
        (glp_set_mat_col_zero_row hset i hi hzero)

/-- C18 as stated fails: for the net with two places and one transition the
problem returned by `buildBase` has five rows, not four, and its row 5 is a
free row. -/
theorem base_has_extra_row :
    ∃ lp polls1, buildBase net_move marking_one_zero never 0 = .ok (some lp, polls1) ∧
      net_move.numberOfPlaces = 2 ∧ lp.m = 5 ∧ lp.m ≠ 2 * net_move.numberOfPlaces ∧
      lp.row_bnds 5 = ⟨.GLP_FR, .fin 0, .fin 0⟩ ∧
      (∀ x : Nat → Int, row_holds lp x 5) :=
  ⟨_, _, rfl, by decide, by decide, by decide, by decide, fun _ => trivial⟩

/-- C18, amended: the problem returned by `buildBase` has exactly
`2 * numberOfPlaces + 1` rows: for every place `p` the state-equation row
`p + 1` with bounds `[-marking[p], +infinity)` and the second-block row
`numberOfPlaces + 1 + p` with bounds `[0, +infinity)`, and one more row, the
last, which is free and has no coefficient. -/
theorem base_row_dimension (net : PetriNet) (marking : Nat → Nat) (tmo : Nat → Bool)
    (polls : Nat) (lp : GlpProb) (polls1 : Nat)
    (h : buildBase net marking tmo polls = .ok (some lp, polls1)) :
    lp.m = 2 * net.numberOfPlaces + 1 ∧
    (∀ p, p < net.numberOfPlaces →
      lp.row_bnds (p + 1) = ⟨.GLP_LO, .fin (-(marking p : Int)), .infty⟩) ∧
    (∀ p, p < net.numberOfPlaces →
      lp.row_bnds (net.numberOfPlaces + 1 + p) = ⟨.GLP_LO, .fin 0, .infty⟩) ∧
    lp.row_bnds (2 * net.numberOfPlaces + 1) = ⟨.GLP_FR, .fin 0, .fin 0⟩ ∧
    (∀ c, lp.coef (2 * net.numberOfPlaces + 1) c = 0) := by
  obtain ⟨_, hm, _, _, hbnds, _⟩ := buildBase_ok net marking tmo polls lp polls1 h
  unfold buildBase at h
  by_cases h0 : tmo polls = true
  · simp [h0] at h
  rw [if_neg h0] at h
  simp only [glp_create_prob] at h
  split at h
  · cases h
  rename_i lp1 hcols
  split at h
  · cases h
  rename_i lp2 hrows
  split at h
  · cases h
  · cases h
  rename_i lp3 pollsA hcl
  split at h
  · cases h
  · cases h
  rename_i lp4 rowno pollsB hbl
  split at h
  · cases h
  rename_i lp5 hrows2
  split at h
  · cases h
  rename_i lp6 hsb
  simp only [Except.ok.injEq, Prod.mk.injEq, Option.some.injEq] at h
  obtain ⟨rfl, rfl⟩ := h
  obtain ⟨hm1, _, hc1, hb1⟩ := glp_add_cols_ok hcols
  obtain ⟨hm2, _, hc2, hb2, _⟩ := glp_add_rows_ok hrows
  obtain ⟨hm3, _, hb3, _, _, _⟩ := column_loop_ok net tmo _ _ _ _ _ _ hcl
  obtain ⟨hm4, _, hc4, hr4, _, _, hb4⟩ := bounds_loop_ok marking tmo _ _ _ _ _ _ _ _ hbl
  obtain ⟨hm5, _, hc5, hb5, hpos⟩ := glp_add_rows_ok hrows2
  obtain ⟨hin, hout⟩ := second_block_loop_rows net _ _ _ _ _ hsb
  simp only at hm1 hc1 hb1
  have hzero3 : ∀ c, lp3.coef (2 * net.numberOfPlaces + 1) c = 0 := by
    apply column_loop_zero_row net tmo _ _ _ _ _ _ _ hcl (by omega)
    intro c
    rw [hc2, hc1]
  refine ⟨hm, ?_, ?_, ?_, ?_⟩
  · intro p hp
    rw [hbnds p hp]
    simp
  · intro p hp
    exact hin _ (by omega) (by omega)
  · rw [(hout _ (by omega)).1, hb5, hb4, if_neg (by omega), hb3, hb2, hb1]
  · intro c
    rw [(hout _ (by omega)).2 c, hc5, hc4]
    exact hzero3 c

theorem base_row_dimension_witness :
    ∃ lp polls1, buildBase net_move marking_one_zero never 0 = .ok (some lp, polls1) ∧
      lp.m = 2 * net_move.numberOfPlaces + 1 ∧
      lp.row_bnds (2 * net_move.numberOfPlaces + 1) = ⟨.GLP_FR, .fin 0, .fin 0⟩ :=
  ⟨_, _, rfl,
    (base_row_dimension net_move marking_one_zero never 0 _ _ rfl).1,
    (base_row_dimension net_move marking_one_zero never 0 _ _ rfl).2.2.2.1⟩


/-! ## Theorems: safety of the merge walk -/

/-- After `|pre| + |post|` iterations both cursors of the merge loop are at
their end: the loop has ended. -/
theorem merge_rest_nil : ∀ (fuel : Nat) (pre post : List Arc),
    pre.length + post.length ≤ fuel → merge_rest fuel pre post = ([], []) := by
  intro fuel
  induction fuel with
  | zero =>
    intro pre post h
    have hp : pre = [] := List.length_eq_zero.mp (by omega)
    have hq : post = [] := List.length_eq_zero.mp (by omega)
    subst hp hq
    rfl
  | succ fuel ih =>
    intro pre post h
    cases pre with
    | nil =>
      cases post with
      | nil => rfl
      | cons b post =>
        simp only [merge_rest]
        exact ih [] post (by simp at h ⊢; omega)
    | cons a pre =>
      cases post with
      | nil =>
        simp only [merge_rest]
        exact ih pre [] (by simp at h ⊢; omega)
      | cons b post =>
        simp only [merge_rest]
        split_ifs
        · exact ih (a :: pre) post (by simp at h ⊢; omega)
        · exact ih pre (b :: post) (by simp at h ⊢; omega)
        · exact ih pre post (by simp at h ⊢; omega)

/-- The merge loop writes one pair in each iteration, so it writes at most as
many pairs as it has fuel. -/
theorem merge_loop_length_le : ∀ (fuel : Nat) (pre post : List Arc),
    (merge_loop fuel pre post).length ≤ fuel := by
  intro fuel
  induction fuel with
  | zero => intro pre post; simp [merge_loop]
  | succ fuel ih =>
    intro pre post
    cases pre with
    | nil =>
      cases post with
      | nil => simp [merge_loop]
      | cons b post =>
        simp only [merge_loop, List.length_cons]
        have := ih [] post
        omega
    | cons a pre =>
      cases post with
      | nil =>
        simp only [merge_loop, List.length_cons]
        have := ih pre []
        omega
      | cons b post =>
        by_cases hlt : b.place < a.place
        · simp only [merge_loop, if_pos hlt, List.length_cons]
          have := ih (a :: pre) post
          omega
        · by_cases hlt2 : a.place < b.place
          · simp only [merge_loop, if_neg hlt, if_pos hlt2, List.length_cons]
            have := ih pre (b :: post)
            omega
          · simp only [merge_loop, if_neg hlt, if_neg hlt2, List.length_cons]
            have := ih pre post
            omega

/-- C20: for a transition whose preset and postset are strictly increasing in
place with all places below `numberOfPlaces`, the merge loop has ended after
`|preset| + |postset|` iterations (both cursors at their end, and more fuel
changes nothing), it makes at most that many writes, every write position `l`
(the `l`-th pair is written to `col[l]` and `indir[l]`) has
`1 ≤ l ≤ numberOfPlaces`, inside `col` with its `numberOfPlaces + 1` slots and
inside `indir` with its `max(numberOfTransitions, numberOfPlaces) + 1` slots,
so the column loop reports no overflow, and the row indices written are
strictly increasing values in `1 .. numberOfPlaces`, none repeated. -/
theorem merge_walk_safe (net : PetriNet) (t : Nat)
    (hpre : ((net.preset t).map Arc.place).Pairwise (· < ·))
    (hpost : ((net.postset t).map Arc.place).Pairwise (· < ·))
    (hpre_lt : ∀ a ∈ net.preset t, a.place < net.numberOfPlaces)
    (hpost_lt : ∀ b ∈ net.postset t, b.place < net.numberOfPlaces) :
    merge_rest ((net.preset t).length + (net.postset t).length) (net.preset t) (net.postset t)
      = ([], []) ∧
    (∀ fuel, (net.preset t).length + (net.postset t).length ≤ fuel →
      merge_loop fuel (net.preset t) (net.postset t)
        = merge_walk (net.preset t) (net.postset t)) ∧
    (merge_walk (net.preset t) (net.postset t)).length
      ≤ (net.preset t).length + (net.postset t).length ∧
    (∀ l, 1 ≤ l → l ≤ (merge_walk (net.preset t) (net.postset t)).length →
      l ≤ net.numberOfPlaces ∧ l < net.numberOfPlaces + 1 ∧
      l < max net.numberOfTransitions net.numberOfPlaces + 1) ∧
    ¬ net.numberOfPlaces < (merge_walk (net.preset t) (net.postset t)).length ∧
    ((merge_walk (net.preset t) (net.postset t)).map Prod.fst).Pairwise (· < ·) ∧
    (∀ e ∈ merge_walk (net.preset t) (net.postset t), 1 ≤ e.1 ∧ e.1 ≤ net.numberOfPlaces) ∧
    ((merge_walk (net.preset t) (net.postset t)).map Prod.fst).Nodup := by
  obtain ⟨hpw, hrange, hlen⟩ :=
    merge_walk_in_range (net.preset t) (net.postset t) net.numberOfPlaces hpre hpost
      hpre_lt hpost_lt
  refine ⟨merge_rest_nil _ _ _ le_rfl, ?_, merge_loop_length_le _ _ _, ?_, by omega, hpw,
    hrange, hpw.imp (fun h => Nat.ne_of_lt h)⟩
  · intro fuel hf
    exact merge_loop_fuel fuel _ _ _ hf le_rfl
  · intro l _ hl
    have := Nat.le_max_right net.numberOfTransitions net.numberOfPlaces
    omega

theorem merge_walk_safe_witness :
    ((net_columns.preset 0).map Arc.place).Pairwise (· < ·) ∧
    ((net_columns.postset 0).map Arc.place).Pairwise (· < ·) ∧
    (∀ a ∈ net_columns.preset 0, a.place < net_columns.numberOfPlaces) ∧
    (∀ b ∈ net_columns.postset 0, b.place < net_columns.numberOfPlaces) ∧
    merge_rest ((net_columns.preset 0).length + (net_columns.postset 0).length)
      (net_columns.preset 0) (net_columns.postset 0) = ([], []) ∧
    (merge_walk (net_columns.preset 0) (net_columns.postset 0)).length
      ≤ (net_columns.preset 0).length + (net_columns.postset 0).length ∧
    ((merge_walk (net_columns.preset 0) (net_columns.postset 0)).map Prod.fst).Pairwise
      (· < ·) :=
  ⟨by decide, by decide, by decide, by decide,
    (merge_walk_safe net_columns 0 (by decide) (by decide) (by decide) (by decide)).1,
    (merge_walk_safe net_columns 0 (by decide) (by decide) (by decide) (by decide)).2.2.1,
    (merge_walk_safe net_columns 0 (by decide) (by decide) (by decide)
      (by decide)).2.2.2.2.2.1⟩


/-! ## Theorems: the registry invariant -/

namespace AnalysisContext

theorem find_eq_none_iff (m : List (String × Nat)) (s : String) :
    find m s = none ↔ s ∉ m.map Prod.fst := by
  induction m with
  | nil => simp [find]
  | cons kv m ih =>
    obtain ⟨k, v⟩ := kv
    by_cases hk : k = s
    · simp [find, hk]
    · have hne : ¬ s = k := fun h => hk h.symm
      simp [find, hk, hne, ih]

/-- What a call does on an identifier that is absent: it is inserted under the
size of the registry reduced to 32 bits, whatever `create` is. -/
theorem resolve_trace_name_of_none (ctx : AnalysisContext) (s : String) (b : Bool)
    (h : find ctx.trace_names s = none) :
    resolve_trace_name ctx s b =
      (⟨ctx.trace_names ++ [(s, ctx.trace_names.length % 4294967296)]⟩,
        if b then .ok (ctx.trace_names.length % 4294967296)
        else .error (.does_not_exist s)) := by
  unfold resolve_trace_name emplace
  cases b <;> simp [h]

theorem run_calls_append (ctx : AnalysisContext) (l1 l2 : List (String × Bool)) :
    run_calls ctx (l1 ++ l2) = run_calls (run_calls ctx l1) l2 := by
  induction l1 generalizing ctx with
  | nil => rfl
  | cons c l1 ih =>
    obtain ⟨s, b⟩ := c
    simp only [List.cons_append, run_calls]
    exact ih _

theorem dense_resolve_trace_name (ctx : AnalysisContext) (s : String) (b : Bool)
    (h : dense ctx) : dense (resolve_trace_name ctx s b).1 := by
  cases hf : find ctx.trace_names s with
  | some v =>
    rw [resolve_trace_name_of_some ctx s v b hf]
    exact h
  | none =>
    rw [resolve_trace_name_of_none ctx s b hf]
    obtain ⟨h1, h2⟩ := h
    refine ⟨?_, ?_⟩
    · simp only [List.map_append, List.map_cons, List.map_nil]
      rw [List.nodup_append]
      refine ⟨h1, List.nodup_singleton _, ?_⟩
      intro a ha hb
      rw [List.mem_singleton] at hb
      subst hb
      exact (find_eq_none_iff _ _).mp hf ha
    · simp only [List.map_append, List.map_cons, List.map_nil, List.length_append,
        List.length_singleton, List.range_succ, h2]

theorem dense_run_calls (calls : List (String × Bool)) (ctx : AnalysisContext)
    (h : dense ctx) : dense (run_calls ctx calls) := by
  induction calls generalizing ctx with
  | nil => exact h
  | cons c calls ih =>
    obtain ⟨s, b⟩ := c
    simp only [run_calls]
    exact ih _ (dense_resolve_trace_name ctx s b h)

theorem map_mod_range (n : Nat) (h : n ≤ 4294967296) :
    ((List.range n).map fun k => k % 4294967296) = List.range n := by
  apply List.ext_getElem
  · simp
  · intro k h1 h2
    simp only [List.length_map, List.length_range] at h1
    simp only [List.getElem_map, List.getElem_range]
    exact Nat.mod_eq_of_lt (by omega)

/-- C19, amended: in every registry state reached from the empty registry by
any sequence of `resolve_trace_name` calls, each identifier is registered at
most once and the stored indices are, in insertion order, the positions
`0, 1, ..., size - 1` reduced modulo 2^32, hence exactly `0 .. size - 1` as
long as the size is at most 2^32; a successful creation returns the size
before the call modulo 2^32, the size itself when it is below 2^32, and
grows the size by exactly one. -/
theorem registry_invariant (calls : List (String × Bool)) :
    ((run_calls empty calls).trace_names.map Prod.fst).Nodup ∧
    (run_calls empty calls).trace_names.map Prod.snd
      = ((List.range (run_calls empty calls).trace_names.length).map
          fun k => k % 4294967296) ∧
    ((run_calls empty calls).trace_names.length ≤ 4294967296 →
      (run_calls empty calls).trace_names.map Prod.snd
        = List.range (run_calls empty calls).trace_names.length) ∧
    (∀ (s : String) (n : Nat) (ctx1 : AnalysisContext),
      resolve_trace_name (run_calls empty calls) s true = (ctx1, .ok n) →
      n = (run_calls empty calls).trace_names.length % 4294967296 ∧
      ((run_calls empty calls).trace_names.length < 4294967296 →
        n = (run_calls empty calls).trace_names.length) ∧
      ctx1.trace_names.length = (run_calls empty calls).trace_names.length + 1) := by
  have hd : dense (run_calls empty calls) :=
    dense_run_calls calls empty ⟨List.nodup_nil, rfl⟩
  refine ⟨hd.1, hd.2, ?_, ?_⟩
  · intro hle
    rw [hd.2, map_mod_range _ hle]
  · intro s n ctx1 hcall
    cases hf : find (run_calls empty calls).trace_names s with
    | some v =>
      rw [resolve_trace_name_of_some _ s v true hf] at hcall
      simp at hcall
    | none =>
      rw [resolve_trace_name_of_none _ s true hf] at hcall
      simp only [if_true, Prod.mk.injEq, Except.ok.injEq] at hcall
      obtain ⟨rfl, rfl⟩ := hcall
      refine ⟨rfl, ?_, ?_⟩
      · intro hlt
        exact Nat.mod_eq_of_lt hlt
      · simp

theorem registry_invariant_witness :
    (run_calls empty [("a", true), ("b", false), ("a", false), ("c", true)]).trace_names
      = [("a", 0), ("b", 1), ("c", 2)] ∧
    ((run_calls empty [("a", true), ("b", false), ("a", false), ("c", true)]).trace_names.map
      Prod.fst).Nodup ∧
    (run_calls empty [("a", true), ("b", false), ("a", false), ("c", true)]).trace_names.map
        Prod.snd
      = List.range
          (run_calls empty [("a", true), ("b", false), ("a", false), ("c", true)]).trace_names.length :=
  ⟨by decide,
    (registry_invariant [("a", true), ("b", false), ("a", false), ("c", true)]).1,
    (registry_invariant [("a", true), ("b", false), ("a", false), ("c", true)]).2.2.1
      (by decide)⟩

theorem nth_name_injective (j k : Nat) (h : nth_name j = nth_name k) : j = k := by
  unfold nth_name at h
  have hl : List.replicate j 'a' = List.replicate k 'a' := by injection h
  have := congrArg List.length hl
  simpa using this

/-- The registry after the creation of the first `n` identifiers of the
family: the `k`-th stored under `k` reduced to 32 bits. -/
theorem run_calls_many_creations (n : Nat) :
    run_calls empty (many_creations n)
      = ⟨(List.range n).map fun k => (nth_name k, k % 4294967296)⟩ := by
  induction n with
  | zero => rfl
  | succ n ih =>
    have hsplit : many_creations (n + 1) = many_creations n ++ [(nth_name n, true)] := by
      unfold many_creations
      rw [List.range_succ, List.map_append]
      rfl
    rw [hsplit, run_calls_append, ih]
    have hnone : find ((List.range n).map fun k => (nth_name k, k % 4294967296)) (nth_name n)
        = none := by
      rw [find_eq_none_iff]
      intro hmem
      simp only [List.map_map, List.mem_map, List.mem_range, Function.comp_apply] at hmem
      obtain ⟨k, hk, hkn⟩ := hmem
      have := nth_name_injective k n hkn
      omega
    simp only [run_calls]
    rw [resolve_trace_name_of_none _ _ true hnone]
    simp only [List.length_map, List.length_range, List.range_succ, List.map_append,
      List.map_cons, List.map_nil]

theorem length_many_creations (n : Nat) :
    (run_calls empty (many_creations n)).trace_names.length = n := by
  rw [run_calls_many_creations]
  simp only [List.length_map, List.length_range]

/-- The creation of the next identifier of the family succeeds with the size
reduced to 32 bits. -/
theorem create_after_many_creations (n : Nat) :
    (resolve_trace_name (run_calls empty (many_creations n)) (nth_name n) true).2
      = .ok (n % 4294967296) := by
  have hnone : find (run_calls empty (many_creations n)).trace_names (nth_name n) = none := by
    rw [run_calls_many_creations, find_eq_none_iff]
    intro hmem
    simp only [List.map_map, List.mem_map, List.mem_range, Function.comp_apply] at hmem
    obtain ⟨k, hk, hkn⟩ := hmem
    have := nth_name_injective k n hkn
    omega
  rw [resolve_trace_name_of_none _ _ true hnone, length_many_creations]
  rfl

theorem stored_index_lt (calls : List (String × Bool)) (v : Nat)
    (h : v ∈ (run_calls empty calls).trace_names.map Prod.snd) : v < 4294967296 := by
  have hd : dense (run_calls empty calls) :=
    dense_run_calls calls empty ⟨List.nodup_nil, rfl⟩
  rw [hd.2] at h
  obtain ⟨k, _, rfl⟩ := List.mem_map.mp h
  exact Nat.mod_lt k (by decide)

/-- C19 as stated fails: after the creation of 4294967296 different
identifiers the registry has size 4294967296, and the creation of one more
identifier succeeds and returns 0, not the size before the call; afterwards the
size is 4294967297 and no identifier is stored under the index 4294967296. -/
theorem creation_index_wraps :
    (run_calls empty (many_creations 4294967296)).trace_names.length = 4294967296 ∧
    (resolve_trace_name (run_calls empty (many_creations 4294967296))
      (nth_name 4294967296) true).2 = .ok 0 ∧
    (run_calls empty (many_creations 4294967297)).trace_names.length = 4294967297 ∧
    4294967296 ∉ (run_calls empty (many_creations 4294967297)).trace_names.map Prod.snd :=
  ⟨length_many_creations _,
    (create_after_many_creations 4294967296).trans
      (congrArg Except.ok (Nat.mod_self 4294967296)),
    length_many_creations _,
    fun hmem => Nat.lt_irrefl _ (stored_index_lt _ _ hmem)⟩

end AnalysisContext

end PQL
end PetriEngine
